import Mathlib

/-
  Verification development for the CRM de-dupe / merge engine.

  Shallow embedding of:
    - src/matching/normalize.py  (field normalizers)
    - src/matching/cluster.py    (exact pre-clustering, blocking, fuzzy graph,
                                  connected components, cluster ids)
    - src/merge/survivorship.py  (master-record selection)

  Conventions:
    - Strings are modelled with Lean `String` over their character lists; the
      Python `str.lower` / `str.strip` used by the source only matter on ASCII
      data here and are modelled by `lowerChar` / `pyStrip` below.
    - Machine floats returned by rapidfuzz's token_sort similarity are
      modelled as rationals; the similarity function itself is an external
      library and is a parameter `tsr : String → String → ℚ` of the
      clustering functions.
    - The phonenumbers library is external as well and is modelled by the
      abstract interface `PhoneLib`.
    - pandas record indices are `Nat` (the frames all carry a RangeIndex
      0..n-1 when the pipeline calls these functions).
-/

namespace CrmDedupe

/-! ### Character / string primitives (normalize.py helpers) -/

/-- Whitespace characters stripped by Python `str.strip` (ASCII scope). -/
def isSpaceChar (c : Char) : Bool :=
  c == ' ' || c == '\t' || c == '\n' || c == '\r' || c == '\x0b' || c == '\x0c'

/-- Python `str.strip` on the character list: drop leading and trailing
whitespace. -/
def stripChars (l : List Char) : List Char :=
  ((l.dropWhile isSpaceChar).reverse.dropWhile isSpaceChar).reverse

/-- Drop leading whitespace. -/
def lstripCh (l : List Char) : List Char := l.dropWhile isSpaceChar

/-- Drop trailing whitespace. -/
def rstripCh (l : List Char) : List Char := (l.reverse.dropWhile isSpaceChar).reverse

/-- Python `str.strip` on strings (`_norm_str` for string input). -/
def pyStrip (s : String) : String := String.mk (stripChars s.toList)

/-- Python `str.lower` on one character (ASCII scope). -/
def lowerChar (c : Char) : Char :=
  if 65 ≤ c.toNat ∧ c.toNat ≤ 90 then Char.ofNat (c.toNat + 32) else c

/-- Python `str.lower` (ASCII scope). -/
def pyLower (s : String) : String := String.mk (s.toList.map lowerChar)

/-- `_norm_lower`: strip then lowercase. -/
def normLower (s : String) : String := pyLower (pyStrip s)

/-- Characters kept by the `_ALNUM` regex `[^a-z0-9]+` substitution. -/
def isAlnumChar (c : Char) : Bool :=
  ('a' ≤ c && c ≤ 'z') || ('0' ≤ c && c ≤ '9')

/-- `_alnum`: lowercase, strip, then remove every character outside
`[a-z0-9]`. -/
def alnumStr (s : String) : String :=
  String.mk ((normLower s).toList.filter isAlnumChar)

/-- Lexicographic code-point comparison of character lists (Python string
`<=`). -/
def chLe : List Char → List Char → Bool
  | [], _ => true
  | _ :: _, [] => false
  | a :: as, b :: bs => if a < b then true else if b < a then false else chLe as bs

/-- Python string `<=` (code-point lexicographic), the order pandas uses when
sorting group keys. -/
def strLe (a b : String) : Bool := chLe a.toList b.toList

/-- Python string `<`. -/
def strLt (a b : String) : Bool := strLe a b && !(a == b)

/-- The relation pandas sorts group keys by. -/
def strLeR : String → String → Prop := fun a b => strLe a b = true

instance : DecidableRel strLeR := fun a b => instDecidableEqBool (strLe a b) true

/-- Executable `t ≤ a` on rationals by integer cross-multiplication (the
field operations of `Rat` are irreducible, so the clustering pipeline uses
this form; `ratLeB_iff` below proves it equal to the plain comparison). -/
def ratLeB (t a : ℚ) : Bool := decide (t.num * (a.den : ℤ) ≤ a.num * (t.den : ℤ))

/-- Executable `t ≤ (a + b) / 2` on rationals by integer
cross-multiplication; `avgGeB_iff` below proves it equal to the source's
averaged-threshold comparison. -/
def avgGeB (a b t : ℚ) : Bool :=
  decide (t.num * (2 * ((a.den : ℤ) * (b.den : ℤ))) ≤
    (a.num * (b.den : ℤ) + b.num * (a.den : ℤ)) * (t.den : ℤ))

/-- Boolean "pattern is an initial segment of the list". -/
def leadsWith : List Char → List Char → Bool
  | [], _ => true
  | _ :: _, [] => false
  | a :: as, b :: bs => a == b && leadsWith as bs

/-! ### normalize.py: email, domain, phone -/

/-- `_normalize_email`: lowercase and strip; if an `@` is present and the
domain is gmail/googlemail, drop the `+tag` suffix of the local part. -/
def normalizeEmail (email : String) : String :=
  let e := (normLower email).toList
  if e == [] then String.mk e
  else if !(e.contains '@') then String.mk e
  else
    let loc := e.takeWhile (fun c => c ≠ '@')
    let dom := (e.dropWhile (fun c => c ≠ '@')).tail
    if String.mk dom == "gmail.com" || String.mk dom == "googlemail.com" then
      String.mk (loc.takeWhile (fun c => c ≠ '+') ++ '@' :: dom)
    else
      String.mk (loc ++ '@' :: dom)

/-- The branch structure of `_normalize_email` on the character list of the
already strip-lowered input (`normalizeEmail_eq` relates the two). -/
def emailCore (e : List Char) : List Char :=
  if e == [] then e
  else if !(e.contains '@') then e
  else
    let loc := e.takeWhile (fun c => c ≠ '@')
    let dom := (e.dropWhile (fun c => c ≠ '@')).tail
    if String.mk dom == "gmail.com" || String.mk dom == "googlemail.com" then
      loc.takeWhile (fun c => c ≠ '+') ++ '@' :: dom
    else
      loc ++ '@' :: dom

/-- `_domain_only`: lowercase+strip, drop an `http(s)://` scheme, drop
everything from the first `/`, drop one leading `www.` label. -/
def domainOnly (url : String) : String :=
  let s := (normLower url).toList
  if s == [] then ""
  else
    let s1 := if leadsWith "https://".toList s then s.drop 8
              else if leadsWith "http://".toList s then s.drop 7
              else s
    let s2 := s1.takeWhile (fun c => c ≠ '/')
    let s3 := if leadsWith "www.".toList s2 then s2.drop 4 else s2
    String.mk s3

/-- Abstract model of the external phonenumbers library: `parse` returns
`none` when the library raises, `isPossible` is `is_possible_number`, and
`formatE164` is `format_number(·, E164)`. -/
structure PhoneLib (P : Type) where
  parse : String → Option P
  isPossible : P → Bool
  formatE164 : P → String

/-- `_normalize_phone`: empty-after-strip input yields `""`; a parse failure
(exception) yields `""`; an implausible number yields `""`; otherwise the
E.164 rendering is returned. -/
def normalizePhone {P : Type} (lib : PhoneLib P) (phone : String) : String :=
  if pyStrip phone == "" then ""
  else
    match lib.parse phone with
    | none => ""
    | some p => if lib.isPossible p then lib.formatE164 p else ""

/-- A concrete one-number instantiation of `PhoneLib`, used to evaluate the
phone normalizer on closed inputs. -/
def toyLib : PhoneLib Unit where
  parse s := if s == "+15551234567" then some () else none
  isPossible _ := true
  formatE164 _ := "+15551234567"

/-! ### cluster.py: generic clustering core

`cluster_people` and `cluster_accounts` share one structure:
exact pre-clustering by a key column (pandas `groupby`, which iterates the
distinct non-empty keys in sorted order), then blocking of the remaining
records, a fuzzy similarity graph inside each block, connected components
(networkx yields every component, singletons included, in node-insertion
order), and a final dead leftover-singleton loop.  The core below is
parameterised by the record count `n`, the exact key column `key`, the
blocking key `bkey` and the ordered pair condition `edge` (guards plus
threshold, evaluated with the smaller-index record first). -/

/-- One expansion step of the reachable set inside node set `all`. -/
def expandF (adj : Nat → Nat → Bool) (all S : Finset ℕ) : Finset ℕ :=
  all.filter (fun v => v ∈ S ∨ ∃ u ∈ S, adj u v = true)

/-- Iterated expansion. -/
def iterExpand (adj : Nat → Nat → Bool) (all : Finset ℕ) : Nat → Finset ℕ → Finset ℕ
  | 0, S => S
  | k + 1, S => iterExpand adj all k (expandF adj all S)

/-- The connected component of `seed` in the graph on `all` (saturated
reachable set, as computed by the networkx BFS). -/
def compOf (adj : Nat → Nat → Bool) (all : Finset ℕ) (seed : ℕ) : Finset ℕ :=
  iterExpand adj all all.card {seed}

/-- The position of the first element satisfying `p` (pandas/python
first-match index). -/
def idxOfP {A : Type} (p : A → Bool) : List A → Option Nat
  | [] => none
  | x :: xs => if p x then some 0 else (idxOfP p xs).map (· + 1)

/-- `networkx.connected_components`: walk the nodes in insertion order and
emit the component of every not-yet-seen node. -/
def discover (adj : Nat → Nat → Bool) (all : Finset ℕ) :
    List Nat → List (Finset ℕ) → Finset ℕ → List (Finset ℕ)
  | [], acc, _ => acc
  | v :: vs, acc, seen =>
    if v ∈ seen then discover adj all vs acc seen
    else discover adj all vs (acc ++ [compOf adj all v]) (seen ∪ compOf adj all v)

section Core

variable (n : Nat) (key bkey : Nat → String) (edge : Nat → Nat → Bool)

/-- The distinct non-empty exact keys, in the sorted order in which pandas
`groupby(..., dropna=True)` iterates them. -/
def coreKeys : List String :=
  List.insertionSort strLeR
    (((List.range n).map key).filter (fun e => !(e == ""))).dedup

/-- Number of exact-phase clusters. -/
def coreNE : Nat := (coreKeys n key).length

/-- A record is "remaining" (not resolved by the exact phase) when its exact
key is empty. -/
def coreIsRem (i : Nat) : Bool := decide (i < n) && (key i == "")

/-- The remaining record indices in frame order. -/
def coreRem : List Nat := (List.range n).filter (fun i => key i == "")

/-- The remaining indices as a node set. -/
def coreAllF : Finset ℕ := (coreRem n key).toFinset

/-- `blocks.setdefault(key, []).append(i)`. -/
def addToBlock : List (String × List Nat) → String → Nat → List (String × List Nat)
  | [], k, i => [(k, [i])]
  | (k', l) :: rest, k, i =>
    if k' == k then (k', l ++ [i]) :: rest else (k', l) :: addToBlock rest k i

/-- The blocks, keyed by blocking key, in first-seen key order. -/
def coreBlocks : List (String × List Nat) :=
  (coreRem n key).foldl (fun bs i => addToBlock bs (bkey i) i) []

/-- Graph node insertion order: all indices of each block, block by block. -/
def coreNodeOrder : List Nat :=
  (coreBlocks n key bkey).foldr (fun b acc => b.2 ++ acc) []

/-- The fuzzy similarity graph: an (undirected) edge between two distinct
remaining records of the same block whenever the ordered condition holds for
the pair taken in index order. -/
def coreAdj (i j : Nat) : Bool :=
  coreIsRem n key i && coreIsRem n key j && (bkey i == bkey j) &&
    (if i < j then edge i j else if j < i then edge j i else false)

/-- The connected components, in discovery order. -/
def coreComps : List (Finset ℕ) :=
  discover (coreAdj n key bkey edge) (coreAllF n key) (coreNodeOrder n key bkey) [] ∅

/-- Remaining records in no component (provably none; the source's trailing
singleton loop). -/
def coreUncovered : List Nat :=
  (coreRem n key).filter (fun r => (coreComps n key bkey edge).all (fun C => decide (r ∉ C)))

/-- The cluster id of record `i`: exact-phase records get the sorted rank of
their key; the rest get `coreNE` plus the discovery position of their
component; the last branch is the source's trailing singleton loop. -/
def coreCid (i : Nat) : Nat :=
  if key i == "" then
    match idxOfP (fun C => decide (i ∈ C)) (coreComps n key bkey edge) with
    | some k => coreNE n key + k
    | none =>
        coreNE n key + (coreComps n key bkey edge).length +
          (coreUncovered n key bkey edge).indexOf i
  else (coreKeys n key).indexOf (key i)

/-- The `cluster_id` column. -/
def coreCids : List Nat := (List.range n).map (coreCid n key bkey edge)

/-- `sorted(set(cluster_map.values()))`. -/
def coreCidsSorted : List Nat :=
  List.insertionSort (· ≤ ·) (coreCids n key bkey edge).dedup

/-- The returned clusters: for each distinct cluster id in ascending order,
the set of record indices carrying it (as the ascending list of indices). -/
def coreClusters : List (List Nat) :=
  (coreCidsSorted n key bkey edge).map
    (fun c => (List.range n).filter (fun i => coreCid n key bkey edge i == c))

end Core

/-! ### cluster.py: the people instance -/

/-- A people record as `cluster_people` reads it: the (already normalized)
`first_name`, `last_name` and `email` columns.  The `*_alnum` helper columns
equal `_alnum` of the name columns and are recomputed on access. -/
structure Person where
  firstName : String
  lastName : String
  email : String
deriving DecidableEq, Repr

instance : Inhabited Person := ⟨⟨"", "", ""⟩⟩

def fnAt (ps : List Person) (i : Nat) : String := (ps.getD i default).firstName

def lnAt (ps : List Person) (i : Nat) : String := (ps.getD i default).lastName

def emailAt (ps : List Person) (i : Nat) : String := (ps.getD i default).email

/-- Exact key of `cluster_people`: the `email` column. -/
def peopleKey (ps : List Person) (i : Nat) : String := emailAt ps i

/-- Blocking key: first character of the alphanumeric last name followed by
first character of the alphanumeric first name. -/
def peopleBkey (ps : List Person) (i : Nat) : String :=
  String.mk ((alnumStr (lnAt ps i)).toList.take 1 ++ (alnumStr (fnAt ps i)).toList.take 1)

/-- Short-token guard: both alphanumeric names must have at least 3
characters. -/
def guardP (ps : List Person) (i : Nat) : Bool :=
  decide (3 ≤ (alnumStr (fnAt ps i)).length) && decide (3 ≤ (alnumStr (lnAt ps i)).length)

/-- Average of the first-name and last-name token-sort similarity of the
lowercased names (`(s_fn + s_ln) / 2`); `tsr` models
`rapidfuzz.fuzz.token_sort_ratio`. -/
def simScoreP (tsr : String → String → ℚ) (ps : List Person) (i j : Nat) : ℚ :=
  (tsr (pyLower (fnAt ps i)) (pyLower (fnAt ps j)) +
    tsr (pyLower (lnAt ps i)) (pyLower (lnAt ps j))) / 2

/-- Ordered fuzzy pair condition of `cluster_people` (guards, then the
88-threshold on the averaged score). -/
def peopleEdge (tsr : String → String → ℚ) (ps : List Person) (i j : Nat) : Bool :=
  guardP ps i && guardP ps j &&
    avgGeB (tsr (pyLower (fnAt ps i)) (pyLower (fnAt ps j)))
      (tsr (pyLower (lnAt ps i)) (pyLower (lnAt ps j))) 88

def peopleCid (tsr : String → String → ℚ) (ps : List Person) : Nat → Nat :=
  coreCid ps.length (peopleKey ps) (peopleBkey ps) (peopleEdge tsr ps)

def peopleClusters (tsr : String → String → ℚ) (ps : List Person) : List (List Nat) :=
  coreClusters ps.length (peopleKey ps) (peopleBkey ps) (peopleEdge tsr ps)

/-! ### cluster.py: the accounts instance -/

/-- An account record as `cluster_accounts` reads it: the `account_name`
column and the normalized `website_domain` column.  The `account_name_alnum`
helper equals `_alnum (account_name)` and is recomputed on access.  (When
every domain is empty the source skips the groupby; the key list is empty in
that case, so the behaviour is identical.) -/
structure Account where
  accountName : String
  websiteDomain : String
deriving DecidableEq, Repr

instance : Inhabited Account := ⟨⟨"", ""⟩⟩

def anAt (as : List Account) (i : Nat) : String := (as.getD i default).accountName

def domAt (as : List Account) (i : Nat) : String := (as.getD i default).websiteDomain

/-- Exact key of `cluster_accounts`: the `website_domain` column. -/
def accountKey (as : List Account) (i : Nat) : String := domAt as i

/-- Blocking key: first two characters of the alphanumeric account name. -/
def accountBkey (as : List Account) (i : Nat) : String :=
  String.mk ((alnumStr (anAt as i)).toList.take 2)

/-- Short-token guard for accounts. -/
def guardA (as : List Account) (i : Nat) : Bool :=
  decide (3 ≤ (alnumStr (anAt as i)).length)

/-- Token-sort similarity of the stripped, lowercased account names. -/
def simScoreA (tsr : String → String → ℚ) (as : List Account) (i j : Nat) : ℚ :=
  tsr (pyLower (pyStrip (anAt as i))) (pyLower (pyStrip (anAt as j)))

/-- Ordered fuzzy pair condition of `cluster_accounts` (guards, then the
90-threshold). -/
def accountEdge (tsr : String → String → ℚ) (as : List Account) (i j : Nat) : Bool :=
  guardA as i && guardA as j && ratLeB 90 (simScoreA tsr as i j)

def accountCid (tsr : String → String → ℚ) (as : List Account) : Nat → Nat :=
  coreCid as.length (accountKey as) (accountBkey as) (accountEdge tsr as)

def accountClusters (tsr : String → String → ℚ) (as : List Account) : List (List Nat) :=
  coreClusters as.length (accountKey as) (accountBkey as) (accountEdge tsr as)

/-! ### survivorship.py

Rows of the clustered frame are modelled as lists of cells aligned with a
shared column-name list; a cell is `none` for a pandas null and `some s` for
the string value `s`.  A cluster is handed to the resolver as its rows in
ascending record-index order (CPython iterates these small index sets in
ascending order). -/

/-- A row of the clustered frame. -/
abbrev Row := List (Option String)

/-- `row[c]` by column label (first occurrence of the label, as pandas
resolves unique labels); `none` when the label is absent or the cell is
null. -/
def getCell (cols : List String) (row : Row) (c : String) : Option String :=
  match idxOfP (fun x => x == c) cols with
  | some k => row.getD k none
  | none => none

/-- `row[c] = v` by column label (no-op when the label is absent; see
`masterPeopleRow` for how the source can only reach that case after having
already selected rows by this very label). -/
def setCell (cols : List String) (row : Row) (c : String) (v : Option String) : Row :=
  match idxOfP (fun x => x == c) cols with
  | some k => row.set k v
  | none => row

/-- `source_type.str.lower() == 'contact'`. -/
def isContact (cols : List String) (row : Row) : Bool :=
  match getCell cols row "source_type" with
  | some s => pyLower s == "contact"
  | none => false

/-- `source_type.str.lower() == 'lead'`. -/
def isLead (cols : List String) (row : Row) : Bool :=
  match getCell cols row "source_type" with
  | some s => pyLower s == "lead"
  | none => false

/-- `notnull().sum(axis=1)`: the number of non-null cells (an empty string
is a non-null cell). -/
def notnullCount (row : Row) : Nat := row.countP (fun v => v.isSome)

/-- `idxmax`-style selection: the first element attaining the maximal
score. -/
def argmaxFirst {α : Type} (f : α → Nat) : List α → Option α
  | [] => none
  | x :: xs =>
    match argmaxFirst f xs with
    | none => some x
    | some y => if f x < f y then some y else some x

/-- The column `k` of a list of rows. -/
def colVals (rows : List Row) (k : Nat) : List (Option String) :=
  rows.map (fun r => r.getD k none)

/-- The backfill loop of `choose_master_people`: each null-or-empty cell of
the base record is replaced by the first non-null value in the lead rows'
column (which may itself be the empty string, since the source only drops
nulls). -/
def backfillRow (cols : List String) (base : Row) (leads : List Row) : Row :=
  (List.range cols.length).map (fun k =>
    let v := base.getD k none
    if v == none || v == some "" then
      match (colVals leads k).filterMap id with
      | [] => v
      | w :: _ => some w
    else v)

/-- The distinct values of a list in first-occurrence order (the insertion
order of a Python `Counter`). -/
def firstOccs (l : List String) : List String :=
  l.foldl (fun acc x => if acc.contains x then acc else acc ++ [x]) []

/-- `Counter(vals).most_common(1)[0][0]`: the most frequent value, ties
resolved in favour of the first-encountered value. -/
def modeFirst (l : List String) : Option String :=
  argmaxFirst (fun v => l.count v) (firstOccs l)

/-- The name-mode override of `choose_master_people` for one field: replace
the base record's cell by the most frequent non-null value of that column
over `rows` (no-op when the column has only nulls). -/
def overrideField (cols : List String) (rows : List Row) (field : String) (base : Row) : Row :=
  match idxOfP (fun x => x == field) cols with
  | none => base
  | some k =>
    match modeFirst ((colVals rows k).filterMap id) with
    | some m => base.set k (some m)
    | none => base

/-- The body of the `choose_master_people` loop for one cluster, whose rows
are given in ascending record-index order.  `none` models the exceptions the
source can raise for a cluster (an `idxmax` over an empty contact-and-lead
partition, or a missing name column in the mode override). -/
def masterPeopleRow (cols : List String) (rows : List Row) : Option Row :=
  let contacts := rows.filter (fun r => isContact cols r)
  let leads := rows.filter (fun r => isLead cols r)
  if !(cols.contains "first_name" && cols.contains "last_name") then none
  else
    match argmaxFirst notnullCount contacts with
    | some base =>
      some (setCell cols
        (overrideField cols rows "last_name"
          (overrideField cols rows "first_name" (backfillRow cols base leads)))
        "source_type" (some "contact"))
    | none =>
      match argmaxFirst notnullCount leads with
      | some base =>
        some (setCell cols
          (overrideField cols leads "last_name"
            (overrideField cols leads "first_name" base))
          "source_type" (some "lead"))
      | none => none

/-- The body of the `choose_master_accounts` loop for one cluster (given as
its ascending list of record indices): `records.iloc[0]`, the row of the
first listed index, verbatim. -/
def masterAccountRow (rows : List Row) (cluster : List Nat) : Option Row :=
  match cluster with
  | [] => none
  | i :: _ => rows.get? i

/-- Count of non-empty cells of a row (a null or an empty string both count
as empty). -/
def nonEmptyCount (row : Row) : Nat :=
  row.countP (fun v => match v with | some s => !(s == "") | none => false)

/-- Modelled from the spec (the claimed survivorship rule, for comparison
with `masterPeopleRow`): the base record is the contact with the highest
count of non-empty fields, and every empty base field is backfilled with the
first non-empty value among the lead rows. -/
def specBackfill (cols : List String) (base : Row) (leads : List Row) : Row :=
  (List.range cols.length).map (fun k =>
    let v := base.getD k none
    if v == none || v == some "" then
      match ((colVals leads k).filterMap id).filter (fun s => !(s == "")) with
      | [] => v
      | w :: _ => some w
    else v)

/-- Modelled from the spec (the claimed master-record rule of claim C4, for
comparison with `masterPeopleRow`): base = contact with the most non-empty
fields (ties to the first encountered), empty base fields backfilled from
the first non-empty lead value, `source_type` forced to `contact`. -/
def specMasterPeopleRow (cols : List String) (rows : List Row) : Option Row :=
  let contacts := rows.filter (fun r => isContact cols r)
  let leads := rows.filter (fun r => isLead cols r)
  match argmaxFirst nonEmptyCount contacts with
  | some base => some (setCell cols (specBackfill cols base leads) "source_type" (some "contact"))
  | none => none

/-! ### Lemmas: the code-point string order -/

theorem chLe_refl (a : List Char) : chLe a a = true := by
  induction a with
  | nil => rfl
  | cons x xs ih => simp [chLe, ih]

theorem chLe_total (a b : List Char) : chLe a b = true ∨ chLe b a = true := by
  induction a generalizing b with
  | nil => left; rfl
  | cons x xs ih =>
    cases b with
    | nil => right; rfl
    | cons y ys =>
      rcases lt_trichotomy x y with h | h | h
      · left; simp [chLe, h]
      · subst h
        rcases ih ys with h' | h'
        · left; simp [chLe, lt_irrefl, h']
        · right; simp [chLe, lt_irrefl, h']
      · right; simp [chLe, h]

theorem chLe_trans (a b c : List Char) (hab : chLe a b = true) (hbc : chLe b c = true) :
    chLe a c = true := by
  induction a generalizing b c with
  | nil => rfl
  | cons x xs ih =>
    cases b with
    | nil => simp [chLe] at hab
    | cons y ys =>
      cases c with
      | nil => simp [chLe] at hbc
      | cons z zs =>
        rcases lt_trichotomy x y with h1 | h1 | h1
        · rcases lt_trichotomy y z with h2 | h2 | h2
          · simp [chLe, lt_trans h1 h2]
          · subst h2; simp [chLe, h1]
          · simp [chLe, h2, not_lt_of_gt h2] at hbc
        · subst h1
          rcases lt_trichotomy x z with h2 | h2 | h2
          · simp [chLe, h2]
          · subst h2
            simp only [chLe, lt_irrefl, if_false] at hab hbc ⊢
            exact ih ys zs hab hbc
          · simp [chLe, h2, not_lt_of_gt h2] at hbc
        · simp [chLe, h1, not_lt_of_gt h1] at hab

theorem chLe_antisymm (a b : List Char) (hab : chLe a b = true) (hba : chLe b a = true) :
    a = b := by
  induction a generalizing b with
  | nil =>
    cases b with
    | nil => rfl
    | cons y ys => simp [chLe] at hba
  | cons x xs ih =>
    cases b with
    | nil => simp [chLe] at hab
    | cons y ys =>
      rcases lt_trichotomy x y with h | h | h
      · simp [chLe, h, not_lt_of_gt h] at hba
      · subst h
        simp only [chLe, lt_irrefl, if_false] at hab hba
        rw [ih ys hab hba]
      · simp [chLe, h, not_lt_of_gt h] at hab

instance : IsTotal String strLeR := ⟨fun a b => chLe_total a.toList b.toList⟩

instance : IsTrans String strLeR :=
  ⟨fun a b c hab hbc => chLe_trans a.toList b.toList c.toList hab hbc⟩

theorem strLe_antisymm {a b : String} (hab : strLe a b = true) (hba : strLe b a = true) :
    a = b := by
  cases a with
  | mk da =>
    cases b with
    | mk db =>
      have : da = db := chLe_antisymm da db hab hba
      rw [this]

theorem strLe_refl (a : String) : strLe a a = true := chLe_refl a.toList

theorem strLe_total (a b : String) : strLe a b = true ∨ strLe b a = true :=
  chLe_total a.toList b.toList

/-! ### Lemmas: exact keys, remaining records, node order -/

theorem coreKeys_nodup (n : Nat) (key : Nat → String) : (coreKeys n key).Nodup :=
  ((List.perm_insertionSort strLeR _).nodup_iff).mpr (List.nodup_dedup _)

theorem coreKeys_sorted (n : Nat) (key : Nat → String) :
    List.Sorted strLeR (coreKeys n key) :=
  List.sorted_insertionSort strLeR _

theorem mem_coreKeys {n : Nat} {key : Nat → String} {e : String} :
    e ∈ coreKeys n key ↔ (¬ e = "" ∧ ∃ i, i < n ∧ key i = e) := by
  unfold coreKeys
  rw [(List.perm_insertionSort strLeR _).mem_iff, List.mem_dedup, List.mem_filter]
  simp only [List.mem_map, List.mem_range, Bool.not_eq_true', beq_eq_false_iff_ne, ne_eq]
  tauto

/-- In a sorted duplicate-free list, strictly smaller elements have strictly
smaller positions. -/
theorem indexOf_lt_indexOf_of_sorted {l : List String} (hs : List.Sorted strLeR l)
    {a b : String} (ha : a ∈ l) (hb : b ∈ l)
    (hle : strLe a b = true) (hne : a ≠ b) : l.indexOf a < l.indexOf b := by
  have hia : l.indexOf a < l.length := List.indexOf_lt_length.mpr ha
  have hib : l.indexOf b < l.length := List.indexOf_lt_length.mpr hb
  rcases lt_trichotomy (l.indexOf a) (l.indexOf b) with h | h | h
  · exact h
  · exact absurd ((List.indexOf_inj ha hb).mp h) hne
  · exfalso
    have hgot := List.pairwise_iff_get.mp hs ⟨l.indexOf b, hib⟩ ⟨l.indexOf a, hia⟩ h
    rw [List.indexOf_get hia, List.indexOf_get hib] at hgot
    exact hne (strLe_antisymm hle hgot)

theorem mem_coreRem {n : Nat} {key : Nat → String} {i : Nat} :
    i ∈ coreRem n key ↔ (i < n ∧ key i = "") := by
  unfold coreRem
  rw [List.mem_filter, List.mem_range]
  simp [beq_iff_eq]

theorem coreRem_nodup (n : Nat) (key : Nat → String) : (coreRem n key).Nodup :=
  (List.nodup_range n).filter _

theorem coreIsRem_iff {n : Nat} {key : Nat → String} {i : Nat} :
    coreIsRem n key i = true ↔ (i < n ∧ key i = "") := by
  simp [coreIsRem]

/-- Concatenation of the blocks' index lists. -/
def concatBlocks (bs : List (String × List Nat)) : List Nat :=
  bs.foldr (fun b acc => b.2 ++ acc) []

theorem concat_addToBlock (bs : List (String × List Nat)) (k : String) (i : Nat) :
    List.Perm (concatBlocks (addToBlock bs k i)) (i :: concatBlocks bs) := by
  induction bs with
  | nil => simp [addToBlock, concatBlocks]
  | cons hd tl ih =>
    obtain ⟨k', l⟩ := hd
    by_cases h : (k' == k) = true
    · have e1 : addToBlock ((k', l) :: tl) k i = (k', l ++ [i]) :: tl := by
        simp [addToBlock, h]
      have e2 : concatBlocks ((k', l ++ [i]) :: tl) = l ++ (i :: concatBlocks tl) := by
        show (l ++ [i]) ++ concatBlocks tl = _
        rw [List.append_assoc]; rfl
      have e3 : concatBlocks ((k', l) :: tl) = l ++ concatBlocks tl := rfl
      rw [e1, e2, e3]
      exact List.perm_middle
    · have e1 : addToBlock ((k', l) :: tl) k i = (k', l) :: addToBlock tl k i := by
        simp [addToBlock, h]
      have e2 : concatBlocks ((k', l) :: addToBlock tl k i) =
          l ++ concatBlocks (addToBlock tl k i) := rfl
      have e3 : concatBlocks ((k', l) :: tl) = l ++ concatBlocks tl := rfl
      rw [e1, e2, e3]
      exact ((ih).append_left l).trans List.perm_middle

theorem concat_foldBlocks (bkey : Nat → String) :
    ∀ (rem : List Nat) (bs : List (String × List Nat)),
      List.Perm (concatBlocks (rem.foldl (fun bs i => addToBlock bs (bkey i) i) bs))
        (concatBlocks bs ++ rem) := by
  intro rem
  induction rem with
  | nil => intro bs; simp
  | cons x xs ih =>
    intro bs
    simp only [List.foldl]
    exact (ih _).trans
      (((concat_addToBlock bs (bkey x) x).append_right xs).trans List.perm_middle.symm)

theorem coreNodeOrder_perm (n : Nat) (key bkey : Nat → String) :
    List.Perm (coreNodeOrder n key bkey) (coreRem n key) := by
  have h := concat_foldBlocks bkey (coreRem n key) []
  simpa [coreNodeOrder, coreBlocks, concatBlocks] using h

theorem mem_coreNodeOrder {n : Nat} {key bkey : Nat → String} {i : Nat} :
    i ∈ coreNodeOrder n key bkey ↔ (i < n ∧ key i = "") := by
  rw [(coreNodeOrder_perm n key bkey).mem_iff, mem_coreRem]

theorem mem_coreAllF {n : Nat} {key : Nat → String} {i : Nat} :
    i ∈ coreAllF n key ↔ (i < n ∧ key i = "") := by
  rw [coreAllF, List.mem_toFinset, mem_coreRem]

/-! ### Lemmas: components of the fuzzy graph -/

theorem mem_expandF {adj : Nat → Nat → Bool} {all S : Finset ℕ} {v : ℕ} :
    v ∈ expandF adj all S ↔ v ∈ all ∧ (v ∈ S ∨ ∃ u ∈ S, adj u v = true) := by
  simp [expandF]

theorem expandF_subset_all (adj : Nat → Nat → Bool) (all S : Finset ℕ) :
    expandF adj all S ⊆ all := Finset.filter_subset _ _

theorem subset_expandF {adj : Nat → Nat → Bool} {all S : Finset ℕ} (hS : S ⊆ all) :
    S ⊆ expandF adj all S := by
  intro v hv
  rw [mem_expandF]
  exact ⟨hS hv, Or.inl hv⟩

theorem iterExpand_outer (adj : Nat → Nat → Bool) (all : Finset ℕ) :
    ∀ (k : Nat) (S : Finset ℕ),
      iterExpand adj all (k + 1) S = expandF adj all (iterExpand adj all k S) := by
  intro k
  induction k with
  | zero => intro S; rfl
  | succ m ih =>
    intro S
    show iterExpand adj all (m + 1) (expandF adj all S) = _
    rw [ih]
    rfl

theorem iterExpand_subset_all (adj : Nat → Nat → Bool) (all : Finset ℕ) :
    ∀ (k : Nat) (S : Finset ℕ), S ⊆ all → iterExpand adj all k S ⊆ all := by
  intro k
  induction k with
  | zero => intro S h; exact h
  | succ m ih =>
    intro S h
    exact ih _ (expandF_subset_all adj all S)

theorem iterExpand_grow (adj : Nat → Nat → Bool) (all : Finset ℕ) (k : Nat)
    (S : Finset ℕ) (h : S ⊆ all) :
    iterExpand adj all k S ⊆ iterExpand adj all (k + 1) S := by
  rw [iterExpand_outer]
  exact subset_expandF (iterExpand_subset_all adj all k S h)

theorem subset_iterExpand (adj : Nat → Nat → Bool) (all : Finset ℕ)
    (S : Finset ℕ) (h : S ⊆ all) : ∀ k, S ⊆ iterExpand adj all k S := by
  intro k
  induction k with
  | zero => exact fun v hv => hv
  | succ m ih => exact ih.trans (iterExpand_grow adj all m S h)

theorem iterExpand_fix_propagate (adj : Nat → Nat → Bool) (all : Finset ℕ)
    (S : Finset ℕ) (j : Nat)
    (hfix : iterExpand adj all (j + 1) S = iterExpand adj all j S) :
    ∀ m, j ≤ m → iterExpand adj all m S = iterExpand adj all j S := by
  intro m
  induction m with
  | zero => intro h; rw [Nat.le_zero.mp h]
  | succ k ih =>
    intro h
    rcases Nat.lt_or_ge j (k + 1) with h1 | h1
    · have hk : j ≤ k := Nat.lt_succ_iff.mp h1
      have := ih hk
      rw [iterExpand_outer, this, ← iterExpand_outer, hfix]
    · have : j = k + 1 := Nat.le_antisymm h h1
      rw [this]

/-- The iterated expansion stabilises after `all.card` steps (pigeonhole on
the cardinality of the growing chain of subsets of `all`). -/
theorem iterExpand_saturates (adj : Nat → Nat → Bool) (all : Finset ℕ)
    (S : Finset ℕ) (hS : S ⊆ all) (hne : S.Nonempty) :
    expandF adj all (iterExpand adj all all.card S) = iterExpand adj all all.card S := by
  have aux : ∀ k : Nat,
      iterExpand adj all (k + 1) S = iterExpand adj all k S ∨
        k + S.card ≤ (iterExpand adj all k S).card := by
    intro k
    induction k with
    | zero =>
      right
      show 0 + S.card ≤ S.card
      omega
    | succ m ih =>
      rcases ih with h | h
      · left
        rw [iterExpand_outer, h, ← iterExpand_outer, h]
      · by_cases he : iterExpand adj all (m + 1) S = iterExpand adj all m S
        · left
          rw [iterExpand_outer, he, ← iterExpand_outer, he]
        · right
          have hsub : iterExpand adj all m S ⊆ iterExpand adj all (m + 1) S :=
            iterExpand_grow adj all m S hS
          have hss : iterExpand adj all m S ⊂ iterExpand adj all (m + 1) S :=
            Finset.ssubset_iff_subset_ne.mpr ⟨hsub, fun heq => he heq.symm⟩
          have hB : (iterExpand adj all m S).card <
              (iterExpand adj all (m + 1) S).card := Finset.card_lt_card hss
          omega
  rcases aux all.card with h | h
  · rw [← iterExpand_outer]; exact h
  · exfalso
    have hsub := iterExpand_subset_all adj all all.card S hS
    have hle := Finset.card_le_card hsub
    have hpos : 1 ≤ S.card := Finset.card_pos.mpr hne
    omega

theorem compOf_subset_all {adj : Nat → Nat → Bool} {all : Finset ℕ} {seed : ℕ}
    (h : seed ∈ all) : compOf adj all seed ⊆ all :=
  iterExpand_subset_all adj all all.card {seed} (Finset.singleton_subset_iff.mpr h)

theorem seed_mem_compOf {adj : Nat → Nat → Bool} {all : Finset ℕ} {seed : ℕ}
    (h : seed ∈ all) : seed ∈ compOf adj all seed :=
  subset_iterExpand adj all {seed} (Finset.singleton_subset_iff.mpr h) all.card
    (Finset.mem_singleton.mpr rfl)

theorem compOf_fix {adj : Nat → Nat → Bool} {all : Finset ℕ} {seed : ℕ}
    (h : seed ∈ all) :
    expandF adj all (compOf adj all seed) = compOf adj all seed :=
  iterExpand_saturates adj all {seed} (Finset.singleton_subset_iff.mpr h)
    (Finset.singleton_nonempty seed)

/-- A saturated component is closed under the adjacency relation. -/
theorem compOf_closed {adj : Nat → Nat → Bool} {all : Finset ℕ} {seed u v : ℕ}
    (h : seed ∈ all) (hu : u ∈ compOf adj all seed) (hv : v ∈ all)
    (ha : adj u v = true) : v ∈ compOf adj all seed := by
  rw [← compOf_fix h, mem_expandF]
  exact ⟨hv, Or.inr ⟨u, hu, ha⟩⟩

/-- A node with no incoming edges can only sit in the component whose seed
it is. -/
theorem eq_seed_of_mem_iterExpand {adj : Nat → Nat → Bool} {all : Finset ℕ} {i : ℕ}
    (hno : ∀ u, adj u i = false) :
    ∀ (k : Nat) (S : Finset ℕ), i ∈ iterExpand adj all k S → i ∈ S := by
  intro k
  induction k with
  | zero => intro S h; exact h
  | succ m ih =>
    intro S h
    have h2 := ih _ h
    rw [mem_expandF] at h2
    rcases h2.2 with h3 | ⟨u, _, hadj⟩
    · exact h3
    · rw [hno u] at hadj
      cases hadj

theorem mem_compOf_eq_seed {adj : Nat → Nat → Bool} {all : Finset ℕ} {i seed : ℕ}
    (hno : ∀ u, adj u i = false) (h : i ∈ compOf adj all seed) : i = seed :=
  Finset.mem_singleton.mp (eq_seed_of_mem_iterExpand hno all.card {seed} h)

/-- The component of a node with no outgoing edges is the singleton of that
node. -/
theorem compOf_isolated {adj : Nat → Nat → Bool} {all : Finset ℕ} {seed : ℕ}
    (h : seed ∈ all) (hno : ∀ v, adj seed v = false) :
    compOf adj all seed = {seed} := by
  have hexp : expandF adj all {seed} = {seed} := by
    apply Finset.ext
    intro v
    rw [mem_expandF, Finset.mem_singleton]
    constructor
    · rintro ⟨hva, h1 | ⟨u, hu, hadj⟩⟩
      · exact h1
      · rw [Finset.mem_singleton] at hu
        subst hu
        rw [hno v] at hadj
        cases hadj
    · intro hv
      subst hv
      exact ⟨h, Or.inl rfl⟩
  have hall : ∀ k, iterExpand adj all k {seed} = {seed} := by
    intro k
    induction k with
    | zero => rfl
    | succ m ih =>
      show iterExpand adj all m (expandF adj all {seed}) = _
      rw [hexp]
      exact ih
  exact hall _

/-! ### Lemmas: component discovery -/

theorem mem_discover_of_mem_acc (adj : Nat → Nat → Bool) (all : Finset ℕ) :
    ∀ (vs : List Nat) (acc : List (Finset ℕ)) (seen : Finset ℕ) (C : Finset ℕ),
      C ∈ acc → C ∈ discover adj all vs acc seen := by
  intro vs
  induction vs with
  | nil => intro acc seen C hC; exact hC
  | cons x xs ih =>
    intro acc seen C hC
    by_cases h : x ∈ seen
    · simp only [discover, if_pos h]
      exact ih _ _ _ hC
    · simp only [discover, if_neg h]
      exact ih _ _ _ (List.mem_append_left _ hC)

theorem discover_shape (adj : Nat → Nat → Bool) (all : Finset ℕ) :
    ∀ (vs : List Nat) (acc : List (Finset ℕ)) (seen : Finset ℕ),
      ∀ C ∈ discover adj all vs acc seen,
        C ∈ acc ∨ ∃ v ∈ vs, C = compOf adj all v := by
  intro vs
  induction vs with
  | nil => intro acc seen C hC; exact Or.inl hC
  | cons x xs ih =>
    intro acc seen C hC
    by_cases h : x ∈ seen
    · simp only [discover, if_pos h] at hC
      rcases ih _ _ _ hC with h1 | ⟨v, hv, he⟩
      · exact Or.inl h1
      · exact Or.inr ⟨v, List.mem_cons_of_mem _ hv, he⟩
    · simp only [discover, if_neg h] at hC
      rcases ih _ _ _ hC with h1 | ⟨v, hv, he⟩
      · rcases List.mem_append.mp h1 with h2 | h2
        · exact Or.inl h2
        · exact Or.inr ⟨x, List.mem_cons_self x xs,
            by rw [List.mem_singleton.mp h2]⟩
      · exact Or.inr ⟨v, List.mem_cons_of_mem _ hv, he⟩

theorem discover_cover (adj : Nat → Nat → Bool) (all : Finset ℕ) :
    ∀ (vs : List Nat) (acc : List (Finset ℕ)) (seen : Finset ℕ),
      (∀ w ∈ seen, ∃ C ∈ acc, w ∈ C) → (∀ v ∈ vs, v ∈ all) →
      ∀ v ∈ vs, ∃ C ∈ discover adj all vs acc seen, v ∈ C := by
  intro vs
  induction vs with
  | nil => intro acc seen _ _ v hv; cases hv
  | cons x xs ih =>
    intro acc seen hseen hall v hv
    by_cases h : x ∈ seen
    · simp only [discover, if_pos h]
      rcases List.mem_cons.mp hv with h1 | h1
      · subst h1
        obtain ⟨C, hC, hvC⟩ := hseen v h
        exact ⟨C, mem_discover_of_mem_acc adj all _ _ _ _ hC, hvC⟩
      · exact ih _ _ hseen (fun w hw => hall w (List.mem_cons_of_mem _ hw)) v h1
    · simp only [discover, if_neg h]
      have hxall : x ∈ all := hall x (List.mem_cons_self x xs)
      rcases List.mem_cons.mp hv with h1 | h1
      · subst h1
        refine ⟨compOf adj all v, ?_, seed_mem_compOf hxall⟩
        exact mem_discover_of_mem_acc adj all _ _ _ _
          (List.mem_append_right _ (List.mem_singleton.mpr rfl))
      · refine ih _ _ ?_ (fun w hw => hall w (List.mem_cons_of_mem _ hw)) v h1
        intro w hw
        rcases Finset.mem_union.mp hw with h2 | h2
        · obtain ⟨C, hC, hwC⟩ := hseen w h2
          exact ⟨C, List.mem_append_left _ hC, hwC⟩
        · exact ⟨compOf adj all x,
            List.mem_append_right _ (List.mem_singleton.mpr rfl), h2⟩

/-! ### Lemmas: first-match positions -/

theorem idxOfP_some_of_exists {A : Type} {p : A → Bool} :
    ∀ {l : List A}, (∃ x ∈ l, p x = true) → ∃ k, idxOfP p l = some k := by
  intro l
  induction l with
  | nil => rintro ⟨x, hx, _⟩; cases hx
  | cons x xs ih =>
    rintro ⟨y, hy, hpy⟩
    by_cases hx : p x = true
    · exact ⟨0, by simp [idxOfP, hx]⟩
    · rcases List.mem_cons.mp hy with h1 | h1
      · subst h1; exact absurd hpy hx
      · obtain ⟨k, hk⟩ := ih ⟨y, h1, hpy⟩
        exact ⟨k + 1, by simp [idxOfP, hx, hk]⟩

theorem idxOfP_some_spec {A : Type} {p : A → Bool} :
    ∀ {l : List A} {k : Nat}, idxOfP p l = some k →
      ∃ hk : k < l.length, p (l.get ⟨k, hk⟩) = true := by
  intro l
  induction l with
  | nil => intro k h; cases h
  | cons x xs ih =>
    intro k h
    by_cases hx : p x = true
    · rw [idxOfP, if_pos hx] at h
      obtain rfl : (0 : Nat) = k := Option.some.inj h
      exact ⟨Nat.succ_pos _, hx⟩
    · rw [idxOfP, if_neg hx] at h
      obtain ⟨k', hk', hmap⟩ := Option.map_eq_some'.mp h
      obtain ⟨hlt, hp⟩ := ih hk'
      subst hmap
      exact ⟨Nat.succ_lt_succ hlt, hp⟩

theorem idxOfP_congr {A : Type} {p q : A → Bool} :
    ∀ {l : List A}, (∀ x ∈ l, p x = q x) → idxOfP p l = idxOfP q l := by
  intro l
  induction l with
  | nil => intro _; rfl
  | cons x xs ih =>
    intro h
    have hx := h x (List.mem_cons_self x xs)
    have hxs := ih (fun y hy => h y (List.mem_cons_of_mem _ hy))
    simp only [idxOfP, hx, hxs]

/-! ### Lemmas: the fuzzy graph and cluster ids of the core -/

theorem coreAdj_iff {n : Nat} {key bkey : Nat → String} {edge : Nat → Nat → Bool}
    {i j : Nat} :
    coreAdj n key bkey edge i j = true ↔
      ((i < n ∧ key i = "") ∧ (j < n ∧ key j = "") ∧ bkey i = bkey j ∧
        ((i < j ∧ edge i j = true) ∨ (j < i ∧ edge j i = true))) := by
  unfold coreAdj
  simp only [Bool.and_eq_true, coreIsRem_iff, beq_iff_eq]
  by_cases h1 : i < j
  · simp [h1, Nat.lt_asymm h1, and_assoc]
  · by_cases h2 : j < i
    · simp [h1, h2, and_assoc]
    · simp [h1, h2, and_assoc]

theorem coreAdj_symm (n : Nat) (key bkey : Nat → String) (edge : Nat → Nat → Bool)
    (i j : Nat) :
    coreAdj n key bkey edge i j = coreAdj n key bkey edge j i := by
  rw [Bool.eq_iff_iff, coreAdj_iff, coreAdj_iff]
  constructor
  · rintro ⟨hi, hj, hb, hd⟩; exact ⟨hj, hi, hb.symm, hd.symm⟩
  · rintro ⟨hj, hi, hb, hd⟩; exact ⟨hi, hj, hb.symm, hd.symm⟩

theorem coreComps_shape {n : Nat} {key bkey : Nat → String} {edge : Nat → Nat → Bool} :
    ∀ C ∈ coreComps n key bkey edge,
      ∃ v, v ∈ coreAllF n key ∧
        C = compOf (coreAdj n key bkey edge) (coreAllF n key) v := by
  intro C hC
  rcases discover_shape _ _ _ _ _ C hC with h | ⟨v, hv, he⟩
  · cases h
  · exact ⟨v, List.mem_toFinset.mpr ((coreNodeOrder_perm n key bkey).mem_iff.mp hv), he⟩

theorem coreComps_cover {n : Nat} {key bkey : Nat → String} {edge : Nat → Nat → Bool}
    {i : Nat} (h1 : i < n) (h2 : key i = "") :
    ∃ C ∈ coreComps n key bkey edge, i ∈ C := by
  refine discover_cover _ _ _ _ _ ?_ ?_ i (mem_coreNodeOrder.mpr ⟨h1, h2⟩)
  · intro w hw; exact absurd hw (Finset.not_mem_empty w)
  · intro v hv; exact mem_coreAllF.mpr (mem_coreNodeOrder.mp hv)

theorem coreCid_exact {n : Nat} {key bkey : Nat → String} {edge : Nat → Nat → Bool}
    {i : Nat} (h : ¬ key i = "") :
    coreCid n key bkey edge i = (coreKeys n key).indexOf (key i) := by
  unfold coreCid
  rw [if_neg (by simpa using h)]

theorem coreCid_exact_lt {n : Nat} {key bkey : Nat → String} {edge : Nat → Nat → Bool}
    {i : Nat} (h : ¬ key i = "") (hi : i < n) :
    coreCid n key bkey edge i < coreNE n key := by
  rw [coreCid_exact h]
  exact List.indexOf_lt_length.mpr (mem_coreKeys.mpr ⟨h, i, hi, rfl⟩)

theorem coreCid_rem {n : Nat} {key bkey : Nat → String} {edge : Nat → Nat → Bool}
    {i : Nat} (hi : i < n) (h : key i = "") :
    ∃ k, idxOfP (fun C => decide (i ∈ C)) (coreComps n key bkey edge) = some k ∧
      coreCid n key bkey edge i = coreNE n key + k := by
  obtain ⟨C, hC, hiC⟩ := @coreComps_cover n key bkey edge i hi h
  obtain ⟨k, hk⟩ :=
    idxOfP_some_of_exists (p := fun C => decide (i ∈ C)) ⟨C, hC, decide_eq_true hiC⟩
  refine ⟨k, hk, ?_⟩
  unfold coreCid
  rw [if_pos (by simpa using h), hk]

theorem coreCid_rem_ge {n : Nat} {key bkey : Nat → String} {edge : Nat → Nat → Bool}
    {i : Nat} (hi : i < n) (h : key i = "") :
    coreNE n key ≤ coreCid n key bkey edge i := by
  obtain ⟨k, _, hc⟩ := @coreCid_rem n key bkey edge i hi h
  omega

theorem coreCid_exact_inj {n : Nat} {key bkey : Nat → String} {edge : Nat → Nat → Bool}
    {i j : Nat} (hi : i < n) (hj : j < n) (hki : ¬ key i = "") (hkj : ¬ key j = "") :
    coreCid n key bkey edge i = coreCid n key bkey edge j ↔ key i = key j := by
  rw [coreCid_exact hki, coreCid_exact hkj]
  constructor
  · intro h
    exact (List.indexOf_inj (mem_coreKeys.mpr ⟨hki, i, hi, rfl⟩)
      (mem_coreKeys.mpr ⟨hkj, j, hj, rfl⟩)).mp h
  · intro h
    rw [h]

/-- A fuzzy edge forces equal cluster ids (same component in discovery
order). -/
theorem coreCid_eq_of_adj {n : Nat} {key bkey : Nat → String} {edge : Nat → Nat → Bool}
    {i j : Nat} (ha : coreAdj n key bkey edge i j = true) :
    coreCid n key bkey edge i = coreCid n key bkey edge j := by
  obtain ⟨⟨hi, hki⟩, ⟨hj, hkj⟩, _, _⟩ := coreAdj_iff.mp ha
  have hiall : i ∈ coreAllF n key := mem_coreAllF.mpr ⟨hi, hki⟩
  have hjall : j ∈ coreAllF n key := mem_coreAllF.mpr ⟨hj, hkj⟩
  have hsymm : coreAdj n key bkey edge j i = true := by
    rw [coreAdj_symm]; exact ha
  have hcongr : ∀ C ∈ coreComps n key bkey edge,
      (decide (i ∈ C)) = (decide (j ∈ C)) := by
    intro C hC
    obtain ⟨v, hvall, rfl⟩ := coreComps_shape C hC
    rw [decide_eq_decide]
    constructor
    · intro hiC; exact compOf_closed hvall hiC hjall ha
    · intro hjC; exact compOf_closed hvall hjC hiall hsymm
  have hidx := idxOfP_congr hcongr
  obtain ⟨k, hk, hci⟩ := @coreCid_rem n key bkey edge i hi hki
  obtain ⟨k', hk', hcj⟩ := @coreCid_rem n key bkey edge j hj hkj
  rw [hidx, hk'] at hk
  have : k' = k := Option.some.inj hk
  omega

/-- Equal cluster ids of two distinct remaining records force the edgeless
one to coincide with the other: a remaining record with no incident fuzzy
edge shares its cluster with nobody else. -/
theorem coreCid_rem_rigid {n : Nat} {key bkey : Nat → String} {edge : Nat → Nat → Bool}
    {i j : Nat} (hi : i < n) (hki : key i = "") (hj : j < n) (hkj : key j = "")
    (hno : ∀ u, coreAdj n key bkey edge u j = false)
    (heq : coreCid n key bkey edge i = coreCid n key bkey edge j) : i = j := by
  obtain ⟨k, hk, hci⟩ := @coreCid_rem n key bkey edge i hi hki
  obtain ⟨k', hk', hcj⟩ := @coreCid_rem n key bkey edge j hj hkj
  have hkk : k = k' := by omega
  subst hkk
  obtain ⟨hlen, hpi⟩ := idxOfP_some_spec hk
  obtain ⟨hlen', hpj⟩ := idxOfP_some_spec hk'
  have hmemC : (coreComps n key bkey edge).get ⟨k, hlen⟩ ∈ coreComps n key bkey edge :=
    List.get_mem _ _ _
  obtain ⟨v, hvall, hCv⟩ := coreComps_shape _ hmemC
  have hiC : i ∈ (coreComps n key bkey edge).get ⟨k, hlen⟩ := of_decide_eq_true hpi
  have hjC : j ∈ (coreComps n key bkey edge).get ⟨k, hlen⟩ := by
    have : (⟨k, hlen'⟩ : Fin (coreComps n key bkey edge).length) = ⟨k, hlen⟩ := rfl
    exact of_decide_eq_true (this ▸ hpj)
  rw [hCv] at hiC hjC
  have hjv : j = v := mem_compOf_eq_seed hno hjC
  subst hjv
  have hno' : ∀ v, coreAdj n key bkey edge j v = false := by
    intro v
    rw [coreAdj_symm]
    exact hno v
  rw [compOf_isolated (mem_coreAllF.mpr ⟨hj, hkj⟩) hno'] at hiC
  exact Finset.mem_singleton.mp hiC

/-! ### Lemmas: the returned clusters partition the index range -/

theorem mem_coreCidsSorted {n : Nat} {key bkey : Nat → String} {edge : Nat → Nat → Bool}
    {c : Nat} :
    c ∈ coreCidsSorted n key bkey edge ↔ ∃ i, i < n ∧ coreCid n key bkey edge i = c := by
  unfold coreCidsSorted coreCids
  rw [(List.perm_insertionSort _ _).mem_iff, List.mem_dedup, List.mem_map]
  simp [List.mem_range]

theorem coreCidsSorted_nodup (n : Nat) (key bkey : Nat → String) (edge : Nat → Nat → Bool) :
    (coreCidsSorted n key bkey edge).Nodup :=
  ((List.perm_insertionSort _ _).nodup_iff).mpr (List.nodup_dedup _)

theorem countP_eq_one_of_nodup {l : List Nat} (hn : l.Nodup) {a : Nat} (ha : a ∈ l) :
    l.countP (fun c => decide (c = a)) = 1 := by
  induction l with
  | nil => cases ha
  | cons x xs ih =>
    rcases List.mem_cons.mp ha with h1 | h1
    · rw [List.countP_cons_of_pos _ _ (by simp [h1])]
      have hzero : xs.countP (fun c => decide (c = a)) = 0 :=
        List.countP_eq_zero.mpr (fun b hb => by
          simp only [decide_eq_true_eq]
          intro hba
          refine (List.nodup_cons.mp hn).1 ?_
          rw [← h1, ← hba]
          exact hb)
      omega
    · have hx : ¬ (x = a) := by
        intro hxa
        exact (List.nodup_cons.mp hn).1 (hxa ▸ h1)
      rw [List.countP_cons_of_neg _ _ (by simpa using hx)]
      exact ih (List.nodup_cons.mp hn).2 h1

/-- The clusters returned by the core: record `i` lies in exactly one of
them when `i < n`, and in none of them otherwise. -/
theorem coreClusters_countP (n : Nat) (key bkey : Nat → String) (edge : Nat → Nat → Bool)
    (i : Nat) :
    (coreClusters n key bkey edge).countP (fun cl => decide (i ∈ cl)) =
      if i < n then 1 else 0 := by
  unfold coreClusters
  rw [List.countP_map]
  have hpt : ∀ c ∈ coreCidsSorted n key bkey edge,
      (decide (i ∈ (List.range n).filter (fun x => coreCid n key bkey edge x == c))) =
        (decide (i < n) && decide (coreCid n key bkey edge i = c)) := by
    intro c _
    rw [Bool.eq_iff_iff]
    simp [List.mem_filter, List.mem_range]
  rw [List.countP_congr (fun c hc => by rw [Function.comp_apply, hpt c hc])]
  by_cases hin : i < n
  · rw [if_pos hin]
    have : ∀ c, ((decide (i < n) && decide (coreCid n key bkey edge i = c))) =
        (decide (c = coreCid n key bkey edge i)) := by
      intro c
      rw [Bool.eq_iff_iff]
      simp [hin, eq_comm]
    rw [List.countP_congr (fun c _ => by rw [this c])]
    exact countP_eq_one_of_nodup (coreCidsSorted_nodup n key bkey edge)
      (mem_coreCidsSorted.mpr ⟨i, hin, rfl⟩)
  · rw [if_neg hin]
    apply List.countP_eq_zero.mpr
    intro c _
    simp [hin]

/-- The cluster of a given record, as returned by the core. -/
theorem coreClusters_self_mem {n : Nat} {key bkey : Nat → String} {edge : Nat → Nat → Bool}
    {i : Nat} (hi : i < n) :
    ∃ cl ∈ coreClusters n key bkey edge, ∀ j,
      (j ∈ cl ↔ (j < n ∧ coreCid n key bkey edge j = coreCid n key bkey edge i)) := by
  refine ⟨(List.range n).filter
    (fun x => coreCid n key bkey edge x == coreCid n key bkey edge i), ?_, ?_⟩
  · unfold coreClusters
    exact List.mem_map.mpr ⟨coreCid n key bkey edge i,
      mem_coreCidsSorted.mpr ⟨i, hi, rfl⟩, rfl⟩
  · intro j
    simp [List.mem_filter, List.mem_range]

/-- Exact-phase cluster ids are ordered by the sorted order of the keys. -/
theorem coreCid_exact_mono {n : Nat} {key bkey : Nat → String} {edge : Nat → Nat → Bool}
    {i j : Nat} (hi : i < n) (hj : j < n) (hki : ¬ key i = "") (hkj : ¬ key j = "")
    (hlt : strLe (key i) (key j) = true) (hne : key i ≠ key j) :
    coreCid n key bkey edge i < coreCid n key bkey edge j := by
  rw [coreCid_exact hki, coreCid_exact hkj]
  exact indexOf_lt_indexOf_of_sorted (coreKeys_sorted n key)
    (mem_coreKeys.mpr ⟨hki, i, hi, rfl⟩) (mem_coreKeys.mpr ⟨hkj, j, hj, rfl⟩) hlt hne

/-! ### Lemmas: the executable rational comparisons agree with the source's -/

theorem ratLeB_iff (t a : ℚ) : ratLeB t a = true ↔ t ≤ a := by
  rw [ratLeB, decide_eq_true_iff]
  exact (Rat.le_def).symm

theorem avgGeB_iff (a b t : ℚ) : avgGeB a b t = true ↔ t ≤ (a + b) / 2 := by
  rw [avgGeB, decide_eq_true_iff]
  have hda : (0 : ℚ) < (a.den : ℚ) := by exact_mod_cast a.den_pos
  have hdb : (0 : ℚ) < (b.den : ℚ) := by exact_mod_cast b.den_pos
  have hdt : (0 : ℚ) < (t.den : ℚ) := by exact_mod_cast t.den_pos
  have ha : (a.num : ℚ) = a * (a.den : ℚ) :=
    (div_eq_iff (ne_of_gt hda)).mp (Rat.num_div_den a)
  have hb : (b.num : ℚ) = b * (b.den : ℚ) :=
    (div_eq_iff (ne_of_gt hdb)).mp (Rat.num_div_den b)
  have ht : (t.num : ℚ) = t * (t.den : ℚ) :=
    (div_eq_iff (ne_of_gt hdt)).mp (Rat.num_div_den t)
  have h2 : (t ≤ (a + b) / 2) ↔ 2 * t ≤ a + b := by
    rw [le_div_iff₀ (by norm_num : (0:ℚ) < 2)]
    constructor <;> intro h <;> linarith
  rw [h2, ← @Int.cast_le ℚ]
  push_cast
  rw [ha, hb, ht]
  constructor <;> intro h <;>
    nlinarith [hda, hdb, hdt, h, mul_pos (mul_pos hda hdb) hdt]

/-! ### Lemmas: instance-level adjacency facts -/

/-- An exact-phase record has no incident fuzzy edge. -/
theorem coreAdj_false_of_exact {n : Nat} {key bkey : Nat → String} {edge : Nat → Nat → Bool}
    {j : Nat} (hk : ¬ key j = "") :
    ∀ u, coreAdj n key bkey edge u j = false ∧ coreAdj n key bkey edge j u = false := by
  intro u
  constructor
  · cases h : coreAdj n key bkey edge u j with
    | false => rfl
    | true => exact absurd (coreAdj_iff.mp h).2.1.2 hk
  · cases h : coreAdj n key bkey edge j u with
    | false => rfl
    | true => exact absurd (coreAdj_iff.mp h).1.2 hk

/-- A people record failing the short-token guard has no incident fuzzy
edge. -/
theorem peopleAdj_false_of_guard {tsr : String → String → ℚ} {ps : List Person}
    {j : Nat} (hg : guardP ps j = false) :
    ∀ u, coreAdj ps.length (peopleKey ps) (peopleBkey ps) (peopleEdge tsr ps) u j = false := by
  intro u
  cases h : coreAdj ps.length (peopleKey ps) (peopleBkey ps) (peopleEdge tsr ps) u j with
  | false => rfl
  | true =>
    exfalso
    obtain ⟨_, _, _, hd⟩ := coreAdj_iff.mp h
    rcases hd with ⟨_, he⟩ | ⟨_, he⟩ <;> simp [peopleEdge, hg] at he

/-! ### Claim theorems -/

/-- Claim C1: for every input dataset the clusters returned by
`cluster_people` (and likewise `cluster_accounts`) are pairwise disjoint and
their union is the full set of record indices: every index `i < n` belongs
to exactly one returned cluster (unmatched records included, as size-1
clusters), and no cluster mentions an out-of-range index. -/
theorem c1_partition :
    ∀ (tsr : String → String → ℚ) (ps : List Person) (acs : List Account) (i : Nat),
      (peopleClusters tsr ps).countP (fun cl => decide (i ∈ cl)) =
        (if i < ps.length then 1 else 0) ∧
      (accountClusters tsr acs).countP (fun cl => decide (i ∈ cl)) =
        (if i < acs.length then 1 else 0) :=
  fun tsr ps acs i =>
    ⟨coreClusters_countP ps.length (peopleKey ps) (peopleBkey ps) (peopleEdge tsr ps) i,
     coreClusters_countP acs.length (accountKey acs) (accountBkey acs) (accountEdge tsr acs) i⟩

/-- Claim C2: records sharing one non-empty exact key (normalized email for
people, normalized website_domain for accounts) always land in one common
cluster, transitively over the whole dataset: if A,B share the key and B,C
share the same key, one returned cluster contains A, B and C. -/
theorem c2_exact_key_merge :
    (∀ (tsr : String → String → ℚ) (ps : List Person) (a b c : Nat),
      a < ps.length → b < ps.length → c < ps.length →
      emailAt ps a ≠ "" → emailAt ps a = emailAt ps b → emailAt ps b = emailAt ps c →
      ∃ cl ∈ peopleClusters tsr ps, a ∈ cl ∧ b ∈ cl ∧ c ∈ cl) ∧
    (∀ (tsr : String → String → ℚ) (acs : List Account) (a b c : Nat),
      a < acs.length → b < acs.length → c < acs.length →
      domAt acs a ≠ "" → domAt acs a = domAt acs b → domAt acs b = domAt acs c →
      ∃ cl ∈ accountClusters tsr acs, a ∈ cl ∧ b ∈ cl ∧ c ∈ cl) := by
  constructor
  · intro tsr ps a b c ha hb hc hka hab hbc
    have hkb : emailAt ps b ≠ "" := hab ▸ hka
    have hkc : emailAt ps c ≠ "" := hbc ▸ hkb
    have h1 : peopleCid tsr ps a = peopleCid tsr ps b :=
      (coreCid_exact_inj ha hb hka hkb).mpr hab
    have h2 : peopleCid tsr ps b = peopleCid tsr ps c :=
      (coreCid_exact_inj hb hc hkb hkc).mpr hbc
    obtain ⟨cl, hcl, hchar⟩ :=
      @coreClusters_self_mem ps.length (peopleKey ps) (peopleBkey ps)
        (peopleEdge tsr ps) a ha
    exact ⟨cl, hcl, (hchar a).mpr ⟨ha, rfl⟩, (hchar b).mpr ⟨hb, h1.symm⟩,
      (hchar c).mpr ⟨hc, (h1.trans h2).symm⟩⟩
  · intro tsr acs a b c ha hb hc hka hab hbc
    have hkb : domAt acs b ≠ "" := hab ▸ hka
    have hkc : domAt acs c ≠ "" := hbc ▸ hkb
    have h1 : accountCid tsr acs a = accountCid tsr acs b :=
      (coreCid_exact_inj ha hb hka hkb).mpr hab
    have h2 : accountCid tsr acs b = accountCid tsr acs c :=
      (coreCid_exact_inj hb hc hkb hkc).mpr hbc
    obtain ⟨cl, hcl, hchar⟩ :=
      @coreClusters_self_mem acs.length (accountKey acs) (accountBkey acs)
        (accountEdge tsr acs) a ha
    exact ⟨cl, hcl, (hchar a).mpr ⟨ha, rfl⟩, (hchar b).mpr ⟨hb, h1.symm⟩,
      (hchar c).mpr ⟨hc, (h1.trans h2).symm⟩⟩

/-- Witness for C2 at a concrete dataset: three people sharing an email and
three accounts sharing a domain each land in one cluster. -/
theorem c2_exact_key_merge_witness :
    (∃ cl ∈ peopleClusters (fun _ _ => (0 : ℚ))
        [⟨"a", "b", "j@x.com"⟩, ⟨"c", "d", "j@x.com"⟩, ⟨"e", "f", "j@x.com"⟩],
      0 ∈ cl ∧ 1 ∈ cl ∧ 2 ∈ cl) ∧
    (∃ cl ∈ accountClusters (fun _ _ => (0 : ℚ))
        [⟨"Acme Inc", "acme.com"⟩, ⟨"ACME", "acme.com"⟩, ⟨"Acme LLC", "acme.com"⟩],
      0 ∈ cl ∧ 1 ∈ cl ∧ 2 ∈ cl) :=
  ⟨c2_exact_key_merge.1 (fun _ _ => (0 : ℚ)) _ 0 1 2 (by decide) (by decide) (by decide)
      (by decide) (by decide) (by decide),
   c2_exact_key_merge.2 (fun _ _ => (0 : ℚ)) _ 0 1 2 (by decide) (by decide) (by decide)
      (by decide) (by decide) (by decide)⟩

/-- Claim C3: inside a block, for a pair that passes the short-token guard
and was not linked by the exact phase, `cluster_people` adds a duplicate
edge exactly when the averaged token-sort score is at least 88 (and an edge
forces a common cluster id); `cluster_accounts` analogously at 90.  On a
concrete two-record dataset a constant score of exactly 88 (resp. 90)
merges the pair while 87 (resp. 89) leaves two distinct clusters. -/
theorem c3_threshold :
    (∀ (tsr : String → String → ℚ) (ps : List Person) (i j : Nat),
      i < ps.length → j < ps.length → i < j →
      emailAt ps i = "" → emailAt ps j = "" →
      peopleBkey ps i = peopleBkey ps j →
      guardP ps i = true → guardP ps j = true →
      ((coreAdj ps.length (peopleKey ps) (peopleBkey ps) (peopleEdge tsr ps) i j = true ↔
          (88 : ℚ) ≤ simScoreP tsr ps i j) ∧
        ((88 : ℚ) ≤ simScoreP tsr ps i j → peopleCid tsr ps i = peopleCid tsr ps j))) ∧
    (∀ (tsr : String → String → ℚ) (acs : List Account) (i j : Nat),
      i < acs.length → j < acs.length → i < j →
      domAt acs i = "" → domAt acs j = "" →
      accountBkey acs i = accountBkey acs j →
      guardA acs i = true → guardA acs j = true →
      ((coreAdj acs.length (accountKey acs) (accountBkey acs) (accountEdge tsr acs) i j = true ↔
          (90 : ℚ) ≤ simScoreA tsr acs i j) ∧
        ((90 : ℚ) ≤ simScoreA tsr acs i j → accountCid tsr acs i = accountCid tsr acs j))) ∧
    (peopleCid (fun _ _ => (88 : ℚ)) [⟨"abc", "xyz", ""⟩, ⟨"abd", "xyz", ""⟩] 0 =
        peopleCid (fun _ _ => (88 : ℚ)) [⟨"abc", "xyz", ""⟩, ⟨"abd", "xyz", ""⟩] 1) ∧
    (peopleCid (fun _ _ => (87 : ℚ)) [⟨"abc", "xyz", ""⟩, ⟨"abd", "xyz", ""⟩] 0 ≠
        peopleCid (fun _ _ => (87 : ℚ)) [⟨"abc", "xyz", ""⟩, ⟨"abd", "xyz", ""⟩] 1) ∧
    (accountCid (fun _ _ => (90 : ℚ)) [⟨"abcd", ""⟩, ⟨"abce", ""⟩] 0 =
        accountCid (fun _ _ => (90 : ℚ)) [⟨"abcd", ""⟩, ⟨"abce", ""⟩] 1) ∧
    (accountCid (fun _ _ => (89 : ℚ)) [⟨"abcd", ""⟩, ⟨"abce", ""⟩] 0 ≠
        accountCid (fun _ _ => (89 : ℚ)) [⟨"abcd", ""⟩, ⟨"abce", ""⟩] 1) := by
  refine ⟨?_, ?_, by decide, by decide, by decide, by decide⟩
  · intro tsr ps i j hi hj hij hei hej hbk hgi hgj
    have hedge : peopleEdge tsr ps i j = true ↔ (88 : ℚ) ≤ simScoreP tsr ps i j := by
      unfold peopleEdge
      rw [hgi, hgj]
      simp only [Bool.true_and]
      rw [avgGeB_iff]
      exact Iff.rfl
    constructor
    · rw [coreAdj_iff]
      constructor
      · rintro ⟨_, _, _, hd⟩
        rcases hd with ⟨_, he⟩ | ⟨hlt, _⟩
        · exact hedge.mp he
        · omega
      · intro hs
        exact ⟨⟨hi, hei⟩, ⟨hj, hej⟩, hbk, Or.inl ⟨hij, hedge.mpr hs⟩⟩
    · intro hs
      exact coreCid_eq_of_adj
        (coreAdj_iff.mpr ⟨⟨hi, hei⟩, ⟨hj, hej⟩, hbk, Or.inl ⟨hij, hedge.mpr hs⟩⟩)
  · intro tsr acs i j hi hj hij hei hej hbk hgi hgj
    have hedge : accountEdge tsr acs i j = true ↔ (90 : ℚ) ≤ simScoreA tsr acs i j := by
      unfold accountEdge
      rw [hgi, hgj]
      simp only [Bool.true_and]
      rw [ratLeB_iff]
    constructor
    · rw [coreAdj_iff]
      constructor
      · rintro ⟨_, _, _, hd⟩
        rcases hd with ⟨_, he⟩ | ⟨hlt, _⟩
        · exact hedge.mp he
        · omega
      · intro hs
        exact ⟨⟨hi, hei⟩, ⟨hj, hej⟩, hbk, Or.inl ⟨hij, hedge.mpr hs⟩⟩
    · intro hs
      exact coreCid_eq_of_adj
        (coreAdj_iff.mpr ⟨⟨hi, hei⟩, ⟨hj, hej⟩, hbk, Or.inl ⟨hij, hedge.mpr hs⟩⟩)

/-- Witness for C3: the people iff and the accounts iff instantiated on
concrete two-record datasets with constant scores. -/
theorem c3_threshold_witness :
    ((coreAdj 2 (peopleKey [⟨"abc", "xyz", ""⟩, ⟨"abd", "xyz", ""⟩])
        (peopleBkey [⟨"abc", "xyz", ""⟩, ⟨"abd", "xyz", ""⟩])
        (peopleEdge (fun _ _ => (88 : ℚ)) [⟨"abc", "xyz", ""⟩, ⟨"abd", "xyz", ""⟩]) 0 1 = true ↔
        (88 : ℚ) ≤ simScoreP (fun _ _ => (88 : ℚ)) [⟨"abc", "xyz", ""⟩, ⟨"abd", "xyz", ""⟩] 0 1) ∧
      ((88 : ℚ) ≤ simScoreP (fun _ _ => (88 : ℚ)) [⟨"abc", "xyz", ""⟩, ⟨"abd", "xyz", ""⟩] 0 1 →
        peopleCid (fun _ _ => (88 : ℚ)) [⟨"abc", "xyz", ""⟩, ⟨"abd", "xyz", ""⟩] 0 =
          peopleCid (fun _ _ => (88 : ℚ)) [⟨"abc", "xyz", ""⟩, ⟨"abd", "xyz", ""⟩] 1)) :=
  c3_threshold.1 (fun _ _ => (88 : ℚ)) [⟨"abc", "xyz", ""⟩, ⟨"abd", "xyz", ""⟩] 0 1
    (by decide) (by decide) (by decide) (by decide) (by decide) (by decide)
    (by decide) (by decide)

/-- Claim C6: a people pair in which either record's alphanumeric first or
last name has fewer than 3 characters is never linked by the fuzzy phase (no
edge, whatever the similarity), and such a pair can share a cluster only by
sharing a non-empty exact email key. -/
theorem c6_short_token :
    ∀ (tsr : String → String → ℚ) (ps : List Person) (i j : Nat),
      i < ps.length → j < ps.length → i ≠ j →
      ((alnumStr (fnAt ps i)).length < 3 ∨ (alnumStr (lnAt ps i)).length < 3 ∨
        (alnumStr (fnAt ps j)).length < 3 ∨ (alnumStr (lnAt ps j)).length < 3) →
      coreAdj ps.length (peopleKey ps) (peopleBkey ps) (peopleEdge tsr ps) i j = false ∧
      (peopleCid tsr ps i = peopleCid tsr ps j →
        emailAt ps i = emailAt ps j ∧ emailAt ps i ≠ "") := by
  intro tsr ps i j hi hj hne hshort
  have hguard : guardP ps i = false ∨ guardP ps j = false := by
    rcases hshort with h | h | h | h
    · left
      unfold guardP
      rw [Bool.and_eq_false_iff]
      left
      simpa using (by omega : ¬ 3 ≤ (alnumStr (fnAt ps i)).length)
    · left
      unfold guardP
      rw [Bool.and_eq_false_iff]
      right
      simpa using (by omega : ¬ 3 ≤ (alnumStr (lnAt ps i)).length)
    · right
      unfold guardP
      rw [Bool.and_eq_false_iff]
      left
      simpa using (by omega : ¬ 3 ≤ (alnumStr (fnAt ps j)).length)
    · right
      unfold guardP
      rw [Bool.and_eq_false_iff]
      right
      simpa using (by omega : ¬ 3 ≤ (alnumStr (lnAt ps j)).length)
  have hadjf : coreAdj ps.length (peopleKey ps) (peopleBkey ps) (peopleEdge tsr ps) i j = false := by
    rcases hguard with hg | hg
    · rw [coreAdj_symm]
      exact peopleAdj_false_of_guard hg j
    · exact peopleAdj_false_of_guard hg i
  refine ⟨hadjf, ?_⟩
  intro heq
  by_cases hei : emailAt ps i = ""
  · by_cases hej : emailAt ps j = ""
    · exfalso
      rcases hguard with hg | hg
      · have hno := @peopleAdj_false_of_guard tsr ps _ hg
        exact hne ((coreCid_rem_rigid hj hej hi hei hno heq.symm).symm)
      · have hno := @peopleAdj_false_of_guard tsr ps _ hg
        exact hne (coreCid_rem_rigid hi hei hj hej hno heq)
    · exfalso
      have h1 : coreNE ps.length (peopleKey ps) ≤ peopleCid tsr ps i :=
        coreCid_rem_ge hi hei
      have h2 : peopleCid tsr ps j < coreNE ps.length (peopleKey ps) :=
        coreCid_exact_lt hej hj
      omega
  · by_cases hej : emailAt ps j = ""
    · exfalso
      have h1 : peopleCid tsr ps i < coreNE ps.length (peopleKey ps) :=
        coreCid_exact_lt hei hi
      have h2 : coreNE ps.length (peopleKey ps) ≤ peopleCid tsr ps j :=
        coreCid_rem_ge hj hej
      omega
    · exact ⟨(coreCid_exact_inj hi hj hei hej).mp heq, hei⟩

/-- Witness for C6: two identically-named records with a 2-letter first name
get no fuzzy edge and distinct clusters. -/
theorem c6_short_token_witness :
    coreAdj 2 (peopleKey [⟨"al", "xyz", ""⟩, ⟨"al", "xyz", ""⟩])
      (peopleBkey [⟨"al", "xyz", ""⟩, ⟨"al", "xyz", ""⟩])
      (peopleEdge (fun _ _ => (100 : ℚ)) [⟨"al", "xyz", ""⟩, ⟨"al", "xyz", ""⟩]) 0 1 = false ∧
    (peopleCid (fun _ _ => (100 : ℚ)) [⟨"al", "xyz", ""⟩, ⟨"al", "xyz", ""⟩] 0 =
        peopleCid (fun _ _ => (100 : ℚ)) [⟨"al", "xyz", ""⟩, ⟨"al", "xyz", ""⟩] 1 →
      emailAt [⟨"al", "xyz", ""⟩, ⟨"al", "xyz", ""⟩] 0 =
          emailAt [⟨"al", "xyz", ""⟩, ⟨"al", "xyz", ""⟩] 1 ∧
        emailAt [⟨"al", "xyz", ""⟩, ⟨"al", "xyz", ""⟩] 0 ≠ "") :=
  c6_short_token (fun _ _ => (100 : ℚ)) [⟨"al", "xyz", ""⟩, ⟨"al", "xyz", ""⟩] 0 1
    (by decide) (by decide) (by decide) (by decide)

/-- Claim C10: a people record with a non-empty normalized email is resolved
by the exact phase even when its email is unique: it is not part of the
remaining (blocked) set, it has no fuzzy edge, its cluster id is an
exact-phase id, and every record sharing its cluster id carries the very
same email — in particular it can never merge with an empty-email record. -/
theorem c10_nonempty_email_exact :
    ∀ (tsr : String → String → ℚ) (ps : List Person) (i : Nat),
      i < ps.length → emailAt ps i ≠ "" →
      coreIsRem ps.length (peopleKey ps) i = false ∧
      (∀ u, coreAdj ps.length (peopleKey ps) (peopleBkey ps) (peopleEdge tsr ps) u i = false ∧
        coreAdj ps.length (peopleKey ps) (peopleBkey ps) (peopleEdge tsr ps) i u = false) ∧
      peopleCid tsr ps i < coreNE ps.length (peopleKey ps) ∧
      (∀ j, j < ps.length → peopleCid tsr ps j = peopleCid tsr ps i →
        emailAt ps j = emailAt ps i) := by
  intro tsr ps i hi hne
  refine ⟨?_, coreAdj_false_of_exact hne, coreCid_exact_lt hne hi, ?_⟩
  · rw [Bool.eq_false_iff]
    intro h
    exact hne (coreIsRem_iff.mp h).2
  · intro j hj heq
    by_cases hej : emailAt ps j = ""
    · exfalso
      have h1 : coreNE ps.length (peopleKey ps) ≤ peopleCid tsr ps j :=
        coreCid_rem_ge hj hej
      have h2 : peopleCid tsr ps i < coreNE ps.length (peopleKey ps) :=
        coreCid_exact_lt hne hi
      omega
    · exact (coreCid_exact_inj hj hi hej hne).mp heq

/-- Witness for C10: a record with a unique email, next to a similarly-named
record without one, stays alone in the exact phase. -/
theorem c10_nonempty_email_exact_witness :
    coreIsRem 2 (peopleKey [⟨"jon", "smith", "jon@x.com"⟩, ⟨"jon", "smith", ""⟩]) 0 = false ∧
    (∀ u, coreAdj 2 (peopleKey [⟨"jon", "smith", "jon@x.com"⟩, ⟨"jon", "smith", ""⟩])
        (peopleBkey [⟨"jon", "smith", "jon@x.com"⟩, ⟨"jon", "smith", ""⟩])
        (peopleEdge (fun _ _ => (100 : ℚ)) [⟨"jon", "smith", "jon@x.com"⟩, ⟨"jon", "smith", ""⟩])
        u 0 = false ∧
      coreAdj 2 (peopleKey [⟨"jon", "smith", "jon@x.com"⟩, ⟨"jon", "smith", ""⟩])
        (peopleBkey [⟨"jon", "smith", "jon@x.com"⟩, ⟨"jon", "smith", ""⟩])
        (peopleEdge (fun _ _ => (100 : ℚ)) [⟨"jon", "smith", "jon@x.com"⟩, ⟨"jon", "smith", ""⟩])
        0 u = false) ∧
    peopleCid (fun _ _ => (100 : ℚ)) [⟨"jon", "smith", "jon@x.com"⟩, ⟨"jon", "smith", ""⟩] 0 <
      coreNE 2 (peopleKey [⟨"jon", "smith", "jon@x.com"⟩, ⟨"jon", "smith", ""⟩]) ∧
    (∀ j, j < 2 →
      peopleCid (fun _ _ => (100 : ℚ)) [⟨"jon", "smith", "jon@x.com"⟩, ⟨"jon", "smith", ""⟩] j =
        peopleCid (fun _ _ => (100 : ℚ)) [⟨"jon", "smith", "jon@x.com"⟩, ⟨"jon", "smith", ""⟩] 0 →
      emailAt [⟨"jon", "smith", "jon@x.com"⟩, ⟨"jon", "smith", ""⟩] j =
        emailAt [⟨"jon", "smith", "jon@x.com"⟩, ⟨"jon", "smith", ""⟩] 0) :=
  c10_nonempty_email_exact (fun _ _ => (100 : ℚ))
    [⟨"jon", "smith", "jon@x.com"⟩, ⟨"jon", "smith", ""⟩] 0 (by decide) (by decide)

/-- Counterexample to claim C7 as stated: with records carrying the emails
"b@x.com" (record 0, whose key is encountered first) and "a@x.com" (record
1), the code assigns cluster id 1 to record 0 and id 0 to record 1 — pandas
`groupby` iterates the keys in sorted order, not in first-encountered
order. -/
theorem c7_counterexample :
    peopleCid (fun _ _ => (0 : ℚ)) [⟨"x", "y", "b@x.com"⟩, ⟨"z", "w", "a@x.com"⟩] 0 = 1 ∧
    peopleCid (fun _ _ => (0 : ℚ)) [⟨"x", "y", "b@x.com"⟩, ⟨"z", "w", "a@x.com"⟩] 1 = 0 := by
  decide

/-- Claim C7 as amended: exact-phase clusters receive the first ids, ordered
by the sorted order of the exact key (not first-encounter order); every
exact-phase id precedes every id of a remaining record; and the remaining
records are numbered by the components pass in node-insertion order, which
groups them block by block (first-seen block key, singleton components
included) rather than in input row order — with three empty-email rows whose
block keys are "sa", "jb", "sa", the rows receive ids 0, 2, 1. -/
theorem c7_amended_id_order :
    (∀ (tsr : String → String → ℚ) (ps : List Person) (i j : Nat),
      i < ps.length → j < ps.length →
      (emailAt ps i ≠ "" → emailAt ps j ≠ "" →
        strLe (emailAt ps i) (emailAt ps j) = true → emailAt ps i ≠ emailAt ps j →
        peopleCid tsr ps i < peopleCid tsr ps j) ∧
      (emailAt ps i ≠ "" → emailAt ps j = "" →
        peopleCid tsr ps i < peopleCid tsr ps j)) ∧
    (∀ (tsr : String → String → ℚ) (acs : List Account) (i j : Nat),
      i < acs.length → j < acs.length →
      (domAt acs i ≠ "" → domAt acs j ≠ "" →
        strLe (domAt acs i) (domAt acs j) = true → domAt acs i ≠ domAt acs j →
        accountCid tsr acs i < accountCid tsr acs j) ∧
      (domAt acs i ≠ "" → domAt acs j = "" →
        accountCid tsr acs i < accountCid tsr acs j)) ∧
    (peopleCid (fun _ _ => (0 : ℚ))
        [⟨"ann", "smith", ""⟩, ⟨"bob", "jones", ""⟩, ⟨"alice", "smith", ""⟩] 0 = 0 ∧
      peopleCid (fun _ _ => (0 : ℚ))
        [⟨"ann", "smith", ""⟩, ⟨"bob", "jones", ""⟩, ⟨"alice", "smith", ""⟩] 1 = 2 ∧
      peopleCid (fun _ _ => (0 : ℚ))
        [⟨"ann", "smith", ""⟩, ⟨"bob", "jones", ""⟩, ⟨"alice", "smith", ""⟩] 2 = 1) := by
  refine ⟨?_, ?_, by decide, by decide, by decide⟩
  · intro tsr ps i j hi hj
    constructor
    · intro hki hkj hle hne
      exact coreCid_exact_mono hi hj hki hkj hle hne
    · intro hki hkj
      have h1 : peopleCid tsr ps i < coreNE ps.length (peopleKey ps) :=
        coreCid_exact_lt hki hi
      have h2 : coreNE ps.length (peopleKey ps) ≤ peopleCid tsr ps j :=
        coreCid_rem_ge hj hkj
      omega
  · intro tsr acs i j hi hj
    constructor
    · intro hki hkj hle hne
      exact coreCid_exact_mono hi hj hki hkj hle hne
    · intro hki hkj
      have h1 : accountCid tsr acs i < coreNE acs.length (accountKey acs) :=
        coreCid_exact_lt hki hi
      have h2 : coreNE acs.length (accountKey acs) ≤ accountCid tsr acs j :=
        coreCid_rem_ge hj hkj
      omega

/-- Witness for the amended C7 on a concrete dataset: the sorted-first email
gets the smaller id and an exact record precedes a remaining record. -/
theorem c7_amended_id_order_witness :
    peopleCid (fun _ _ => (0 : ℚ))
        [⟨"x", "y", "b@x.com"⟩, ⟨"z", "w", "a@x.com"⟩, ⟨"q", "r", ""⟩] 1 <
      peopleCid (fun _ _ => (0 : ℚ))
        [⟨"x", "y", "b@x.com"⟩, ⟨"z", "w", "a@x.com"⟩, ⟨"q", "r", ""⟩] 0 ∧
    peopleCid (fun _ _ => (0 : ℚ))
        [⟨"x", "y", "b@x.com"⟩, ⟨"z", "w", "a@x.com"⟩, ⟨"q", "r", ""⟩] 0 <
      peopleCid (fun _ _ => (0 : ℚ))
        [⟨"x", "y", "b@x.com"⟩, ⟨"z", "w", "a@x.com"⟩, ⟨"q", "r", ""⟩] 2 :=
  ⟨((c7_amended_id_order.1 (fun _ _ => (0 : ℚ))
      [⟨"x", "y", "b@x.com"⟩, ⟨"z", "w", "a@x.com"⟩, ⟨"q", "r", ""⟩] 1 0
      (by decide) (by decide)).1 (by decide) (by decide) (by decide) (by decide)),
   ((c7_amended_id_order.1 (fun _ _ => (0 : ℚ))
      [⟨"x", "y", "b@x.com"⟩, ⟨"z", "w", "a@x.com"⟩, ⟨"q", "r", ""⟩] 0 2
      (by decide) (by decide)).2 (by decide) (by decide))⟩

/-- Claim C8: `_normalize_phone` never raises — for every input string it
either returns the empty string (empty input, parse failure, implausible
number) or the E.164 rendering of a successfully parsed, plausible
number. -/
theorem c8_phone_never_raises :
    ∀ (P : Type) (lib : PhoneLib P) (s : String),
      normalizePhone lib s = "" ∨
      ∃ p, lib.parse s = some p ∧ lib.isPossible p = true ∧
        normalizePhone lib s = lib.formatE164 p := by
  intro P lib s
  unfold normalizePhone
  by_cases h1 : (pyStrip s == "") = true
  · rw [if_pos h1]
    exact Or.inl rfl
  · rw [if_neg h1]
    cases hp : lib.parse s with
    | none => exact Or.inl rfl
    | some p =>
      by_cases h2 : lib.isPossible p = true
      · right
        refine ⟨p, rfl, h2, ?_⟩
        show (if lib.isPossible p = true then lib.formatE164 p else "") = lib.formatE164 p
        rw [if_pos h2]
      · left
        show (if lib.isPossible p = true then lib.formatE164 p else "") = ""
        rw [if_neg h2]

/-! ### Lemmas: survivorship -/

theorem argmaxFirst_isSome {α : Type} {f : α → Nat} {l : List α} (h : l ≠ []) :
    ∃ b, argmaxFirst f l = some b := by
  cases l with
  | nil => exact absurd rfl h
  | cons x xs =>
    unfold argmaxFirst
    cases hxs : argmaxFirst f xs with
    | none => exact ⟨x, rfl⟩
    | some y => by_cases hc : f x < f y <;> simp [hc]

theorem argmaxFirst_mem {α : Type} {f : α → Nat} :
    ∀ {l : List α} {b : α}, argmaxFirst f l = some b → b ∈ l := by
  intro l
  induction l with
  | nil => intro b h; cases h
  | cons x xs ih =>
    intro b h
    unfold argmaxFirst at h
    cases hxs : argmaxFirst f xs with
    | none =>
      rw [hxs] at h
      have h' : some x = some b := h
      exact List.mem_cons.mpr (Or.inl (Option.some.inj h').symm)
    | some y =>
      rw [hxs] at h
      have h' : (if f x < f y then some y else some x) = some b := h
      by_cases hc : f x < f y
      · rw [if_pos hc] at h'
        exact List.mem_cons_of_mem _ (ih (hxs.trans (congrArg some (Option.some.inj h'))))
      · rw [if_neg hc] at h'
        exact List.mem_cons.mpr (Or.inl (Option.some.inj h').symm)

theorem argmaxFirst_max {α : Type} {f : α → Nat} :
    ∀ {l : List α} {b : α}, argmaxFirst f l = some b → ∀ c ∈ l, f c ≤ f b := by
  intro l
  induction l with
  | nil => intro b h; cases h
  | cons x xs ih =>
    intro b h c hc
    unfold argmaxFirst at h
    cases hxs : argmaxFirst f xs with
    | none =>
      rw [hxs] at h
      have h' : some x = some b := h
      obtain rfl : x = b := Option.some.inj h'
      rcases List.mem_cons.mp hc with h1 | h1
      · rw [h1]
      · exfalso
        cases xs with
        | nil => cases h1
        | cons z zs =>
          obtain ⟨w, hw⟩ := argmaxFirst_isSome (f := f)
            (l := z :: zs) (List.cons_ne_nil z zs)
          rw [hw] at hxs
          cases hxs
    | some y =>
      rw [hxs] at h
      have h' : (if f x < f y then some y else some x) = some b := h
      by_cases hcmp : f x < f y
      · rw [if_pos hcmp] at h'
        obtain rfl : y = b := Option.some.inj h'
        rcases List.mem_cons.mp hc with h1 | h1
        · rw [h1]; omega
        · exact ih hxs c h1
      · rw [if_neg hcmp] at h'
        obtain rfl : x = b := Option.some.inj h'
        rcases List.mem_cons.mp hc with h1 | h1
        · rw [h1]
        · have := ih hxs c h1
          omega

theorem backfillRow_length (cols : List String) (b : Row) (leads : List Row) :
    (backfillRow cols b leads).length = cols.length := by
  simp [backfillRow]

theorem overrideField_length (cols : List String) (rows : List Row) (f : String) (base : Row) :
    (overrideField cols rows f base).length = base.length := by
  unfold overrideField
  cases hk : idxOfP (fun x => x == f) cols with
  | none => rfl
  | some k =>
    show (match modeFirst (List.filterMap id (colVals rows k)) with
      | some m => List.set base k (some m)
      | none => base).length = base.length
    cases hm : modeFirst (List.filterMap id (colVals rows k)) with
    | none => rfl
    | some m => simp

theorem getD_set_self {α : Type} :
    ∀ (l : List α) (k : Nat) (v d : α), k < l.length → (l.set k v).getD k d = v := by
  intro l
  induction l with
  | nil => intro k v d h; cases h
  | cons x xs ih =>
    intro k v d h
    cases k with
    | zero => rfl
    | succ m =>
      show (xs.set m v).getD m d = v
      exact ih m v d (by simpa using h)

/-- `source_type` is a column whenever some row tests as a contact. -/
theorem sourceIdx_some_of_contact {cols : List String} {r : Row}
    (h : isContact cols r = true) :
    ∃ k, idxOfP (fun x => x == "source_type") cols = some k := by
  unfold isContact getCell at h
  cases hk : idxOfP (fun x => x == "source_type") cols with
  | none => rw [hk] at h; cases h
  | some k => exact ⟨k, rfl⟩

/-! ### Claims C4 and C5 -/

/-- Counterexample to claim C4 as stated: with two contacts — one with only
`first_name` filled in (empty strings elsewhere), one fully populated — the
code's completeness score is `notnull()` (an empty string counts as
populated), so both contacts tie at 5 and the first contact wins, while the
claimed non-empty-field count would select the fully populated second
contact; the resulting master records differ (the code's master has an empty
email where the claim requires `a@x.com`). -/
theorem c4_counterexample :
    masterPeopleRow ["first_name", "last_name", "email", "phone", "source_type"]
        [[some "ann", some "", some "", some "", some "contact"],
         [some "ann", some "lee", some "a@x.com", some "+15550000000", some "contact"]] =
      some [some "ann", some "", some "", some "", some "contact"] ∧
    specMasterPeopleRow ["first_name", "last_name", "email", "phone", "source_type"]
        [[some "ann", some "", some "", some "", some "contact"],
         [some "ann", some "lee", some "a@x.com", some "+15550000000", some "contact"]] =
      some [some "ann", some "lee", some "a@x.com", some "+15550000000", some "contact"] ∧
    masterPeopleRow ["first_name", "last_name", "email", "phone", "source_type"]
        [[some "ann", some "", some "", some "", some "contact"],
         [some "ann", some "lee", some "a@x.com", some "+15550000000", some "contact"]] ≠
      specMasterPeopleRow ["first_name", "last_name", "email", "phone", "source_type"]
        [[some "ann", some "", some "", some "", some "contact"],
         [some "ann", some "lee", some "a@x.com", some "+15550000000", some "contact"]] := by
  refine ⟨by decide, by decide, by decide⟩

/-- Claim C4 as amended: for a people cluster containing a contact, the base
record is a contact with the maximal count of non-NULL fields (empty strings
count as populated; ties go to the first-encountered contact), the master is
that base backfilled (null-or-empty fields filled with the first non-null
lead value, which may itself be empty) with the first/last names then
overridden by the cluster-wide most frequent value, and the master's
`source_type` is "contact". -/
theorem c4_amended_contact_master :
    ∀ (cols : List String) (rows : List Row),
      "first_name" ∈ cols → "last_name" ∈ cols →
      rows.filter (fun r => isContact cols r) ≠ [] →
      ∃ b, b ∈ rows.filter (fun r => isContact cols r) ∧
        (∀ c ∈ rows.filter (fun r => isContact cols r),
          notnullCount c ≤ notnullCount b) ∧
        masterPeopleRow cols rows =
          some (setCell cols
            (overrideField cols rows "last_name"
              (overrideField cols rows "first_name"
                (backfillRow cols b (rows.filter (fun r => isLead cols r)))))
            "source_type" (some "contact")) ∧
        (∀ m, masterPeopleRow cols rows = some m →
          getCell cols m "source_type" = some "contact") := by
  intro cols rows hfn hln hcontacts
  obtain ⟨b, hb⟩ := argmaxFirst_isSome (f := notnullCount) hcontacts
  have hmaster : masterPeopleRow cols rows =
      some (setCell cols
        (overrideField cols rows "last_name"
          (overrideField cols rows "first_name"
            (backfillRow cols b (rows.filter (fun r => isLead cols r)))))
        "source_type" (some "contact")) := by
    unfold masterPeopleRow
    rw [show cols.contains "first_name" = true from List.elem_eq_true_of_mem hfn,
      show cols.contains "last_name" = true from List.elem_eq_true_of_mem hln]
    simp only [Bool.and_self, Bool.not_true]
    rw [if_neg (by simp), hb]
  refine ⟨b, argmaxFirst_mem hb, argmaxFirst_max hb, hmaster, ?_⟩
  intro m hm
  rw [hmaster] at hm
  obtain rfl : _ = m := Option.some.inj hm
  obtain ⟨r0, hr0⟩ := List.exists_mem_of_ne_nil _ hcontacts
  have hr0c : isContact cols r0 = true := (List.mem_filter.mp hr0).2
  obtain ⟨k, hk⟩ := sourceIdx_some_of_contact hr0c
  obtain ⟨hcltk, _⟩ := idxOfP_some_spec hk
  unfold setCell getCell
  rw [hk]
  apply getD_set_self
  rw [overrideField_length, overrideField_length, backfillRow_length]
  exact hcltk

/-- Witness for the amended C4 at the spec's own scenario: one contact with
3 of 5 fields populated, one fully populated lead. -/
theorem c4_amended_contact_master_witness :
    ∃ b, b ∈ ([[some "jon", some "smith", some "jon@x.com", some "", some "contact"],
          [some "jonathan", some "smith", some "j2@x.com", some "+15551234567", some "lead"]] :
            List Row).filter
          (fun r => isContact ["first_name", "last_name", "email", "phone", "source_type"] r) ∧
      (∀ c ∈ ([[some "jon", some "smith", some "jon@x.com", some "", some "contact"],
          [some "jonathan", some "smith", some "j2@x.com", some "+15551234567", some "lead"]] :
            List Row).filter
          (fun r => isContact ["first_name", "last_name", "email", "phone", "source_type"] r),
        notnullCount c ≤ notnullCount b) ∧
      masterPeopleRow ["first_name", "last_name", "email", "phone", "source_type"]
          [[some "jon", some "smith", some "jon@x.com", some "", some "contact"],
           [some "jonathan", some "smith", some "j2@x.com", some "+15551234567", some "lead"]] =
        some (setCell ["first_name", "last_name", "email", "phone", "source_type"]
          (overrideField ["first_name", "last_name", "email", "phone", "source_type"]
            [[some "jon", some "smith", some "jon@x.com", some "", some "contact"],
             [some "jonathan", some "smith", some "j2@x.com", some "+15551234567", some "lead"]]
            "last_name"
            (overrideField ["first_name", "last_name", "email", "phone", "source_type"]
              [[some "jon", some "smith", some "jon@x.com", some "", some "contact"],
               [some "jonathan", some "smith", some "j2@x.com", some "+15551234567", some "lead"]]
              "first_name"
              (backfillRow ["first_name", "last_name", "email", "phone", "source_type"] b
                (([[some "jon", some "smith", some "jon@x.com", some "", some "contact"],
                   [some "jonathan", some "smith", some "j2@x.com", some "+15551234567",
                     some "lead"]] : List Row).filter
                  (fun r =>
                    isLead ["first_name", "last_name", "email", "phone", "source_type"] r)))))
          "source_type" (some "contact")) ∧
      (∀ m, masterPeopleRow ["first_name", "last_name", "email", "phone", "source_type"]
            [[some "jon", some "smith", some "jon@x.com", some "", some "contact"],
             [some "jonathan", some "smith", some "j2@x.com", some "+15551234567", some "lead"]] =
          some m →
        getCell ["first_name", "last_name", "email", "phone", "source_type"] m "source_type" =
          some "contact") :=
  c4_amended_contact_master ["first_name", "last_name", "email", "phone", "source_type"]
    [[some "jon", some "smith", some "jon@x.com", some "", some "contact"],
     [some "jonathan", some "smith", some "j2@x.com", some "+15551234567", some "lead"]]
    (by decide) (by decide) (by decide)

/-- Claim C5: for every account cluster (its members listed in ascending
record-index order, as the pipeline does), `choose_master_accounts` returns
the row of the member with the smallest record index, verbatim — no
backfill, no name-mode override, the full row is copied unchanged. -/
theorem c5_account_master_first :
    ∀ (rows : List Row) (cluster : List Nat),
      List.Sorted (· < ·) cluster → cluster ≠ [] → (∀ j ∈ cluster, j < rows.length) →
      ∃ i, i ∈ cluster ∧ (∀ j ∈ cluster, i ≤ j) ∧
        masterAccountRow rows cluster = rows.get? i ∧ (rows.get? i).isSome = true := by
  intro rows cluster hs hne hbound
  cases cluster with
  | nil => exact absurd rfl hne
  | cons x xs =>
    refine ⟨x, List.mem_cons_self x xs, ?_, rfl, ?_⟩
    · intro j hj
      rcases List.mem_cons.mp hj with h | h
      · omega
      · exact le_of_lt ((List.sorted_cons.mp hs).1 j h)
    · rw [List.get?_eq_get (hbound x (List.mem_cons_self x xs))]
      rfl

/-- Witness for C5 on a concrete cluster. -/
theorem c5_account_master_first_witness :
    ∃ i, i ∈ [1, 2] ∧ (∀ j ∈ [1, 2], i ≤ j) ∧
      masterAccountRow [[some "r0"], [some "r1"], [some "r2"]] [1, 2] =
        ([[some "r0"], [some "r1"], [some "r2"]] : List Row).get? i ∧
      (([[some "r0"], [some "r1"], [some "r2"]] : List Row).get? i).isSome = true :=
  c5_account_master_first [[some "r0"], [some "r1"], [some "r2"]] [1, 2]
    (by decide) (by decide) (by decide)

/-! ### Lemmas: idempotence infrastructure for the normalizers -/

theorem toNat_ofNat_lower {m : Nat} (h1 : 97 ≤ m) (h2 : m ≤ 122) :
    (Char.ofNat m).toNat = m := by
  interval_cases m <;> decide

theorem lowerChar_idem (c : Char) : lowerChar (lowerChar c) = lowerChar c := by
  by_cases h : 65 ≤ c.toNat ∧ c.toNat ≤ 90
  · have h1 : lowerChar c = Char.ofNat (c.toNat + 32) := by
      unfold lowerChar
      rw [if_pos h]
    have ht : (Char.ofNat (c.toNat + 32)).toNat = c.toNat + 32 :=
      toNat_ofNat_lower (by omega) (by omega)
    rw [h1]
    unfold lowerChar
    rw [if_neg (by rw [ht]; omega)]
  · have h1 : lowerChar c = c := by
      unfold lowerChar
      rw [if_neg h]
    rw [h1, h1]

theorem isSpaceChar_iff_toNat (c : Char) :
    isSpaceChar c = true ↔
      (c.toNat = 32 ∨ c.toNat = 9 ∨ c.toNat = 10 ∨ c.toNat = 13 ∨
        c.toNat = 11 ∨ c.toNat = 12) := by
  have hinj : ∀ (d : Char), c.toNat = d.toNat → c = d := by
    intro d hd
    have h2 := congrArg Char.ofNat hd
    rwa [Char.ofNat_toNat, Char.ofNat_toNat] at h2
  have e : ∀ (d : Char), (c = d) ↔ (c.toNat = d.toNat) :=
    fun d => ⟨fun h => by rw [h], fun h => hinj d h⟩
  unfold isSpaceChar
  simp only [Bool.or_eq_true, beq_iff_eq, e ' ', e '\t', e '\n', e '\x0d',
    e '\x0b', e '\x0c']
  have t1 : (' ').toNat = 32 := rfl
  have t2 : ('\t').toNat = 9 := rfl
  have t3 : ('\n').toNat = 10 := rfl
  have t4 : ('\x0d').toNat = 13 := rfl
  have t5 : ('\x0b').toNat = 11 := rfl
  have t6 : ('\x0c').toNat = 12 := rfl
  rw [t1, t2, t3, t4, t5, t6]
  tauto

theorem isSpaceChar_lowerChar (c : Char) :
    isSpaceChar (lowerChar c) = isSpaceChar c := by
  by_cases h : 65 ≤ c.toNat ∧ c.toNat ≤ 90
  · have h1 : lowerChar c = Char.ofNat (c.toNat + 32) := by
      unfold lowerChar
      rw [if_pos h]
    have ht : (Char.ofNat (c.toNat + 32)).toNat = c.toNat + 32 :=
      toNat_ofNat_lower (by omega) (by omega)
    have hl : isSpaceChar (Char.ofNat (c.toNat + 32)) = false := by
      rw [Bool.eq_false_iff]
      intro hsp
      rcases (isSpaceChar_iff_toNat _).mp hsp with hh | hh | hh | hh | hh | hh <;>
        (rw [ht] at hh; omega)
    have hr : isSpaceChar c = false := by
      rw [Bool.eq_false_iff]
      intro hsp
      rcases (isSpaceChar_iff_toNat _).mp hsp with hh | hh | hh | hh | hh | hh <;> omega
    rw [h1, hl, hr]
  · have h1 : lowerChar c = c := by
      unfold lowerChar
      rw [if_neg h]
    rw [h1]

theorem dropWhile_idem (p : Char → Bool) :
    ∀ l : List Char, List.dropWhile p (List.dropWhile p l) = List.dropWhile p l := by
  intro l
  induction l with
  | nil => rfl
  | cons x xs ih =>
    rw [List.dropWhile_cons]
    by_cases h : p x = true
    · rw [if_pos h]
      exact ih
    · rw [if_neg h, List.dropWhile_cons, if_neg h]

theorem head_dropWhile_false (p : Char → Bool) :
    ∀ (l : List Char) (c : Char), (List.dropWhile p l).head? = some c → p c = false := by
  intro l
  induction l with
  | nil => intro c h; cases h
  | cons x xs ih =>
    intro c h
    rw [List.dropWhile_cons] at h
    by_cases hx : p x = true
    · rw [if_pos hx] at h
      exact ih c h
    · rw [if_neg hx] at h
      obtain rfl : x = c := Option.some.inj h
      exact Bool.eq_false_iff.mpr hx

theorem dropWhile_map_lower (p : Char → Bool) (hp : ∀ c, p (lowerChar c) = p c) :
    ∀ l : List Char,
      List.dropWhile p (l.map lowerChar) = (List.dropWhile p l).map lowerChar := by
  intro l
  induction l with
  | nil => rfl
  | cons x xs ih =>
    rw [List.map_cons, List.dropWhile_cons, List.dropWhile_cons, hp x]
    by_cases h : p x = true
    · rw [if_pos h, if_pos h]
      exact ih
    · rw [if_neg h, if_neg h, List.map_cons]

theorem lstripCh_map_lower (l : List Char) :
    lstripCh (l.map lowerChar) = (lstripCh l).map lowerChar :=
  dropWhile_map_lower isSpaceChar isSpaceChar_lowerChar l

theorem rstripCh_map_lower (l : List Char) :
    rstripCh (l.map lowerChar) = (rstripCh l).map lowerChar := by
  unfold rstripCh
  rw [← List.map_reverse, dropWhile_map_lower isSpaceChar isSpaceChar_lowerChar,
    List.map_reverse]

theorem stripChars_eq (l : List Char) : stripChars l = rstripCh (lstripCh l) := rfl

theorem stripChars_map_lower (l : List Char) :
    stripChars (l.map lowerChar) = (stripChars l).map lowerChar := by
  rw [stripChars_eq, stripChars_eq, lstripCh_map_lower, rstripCh_map_lower]

theorem lstripCh_idem (l : List Char) : lstripCh (lstripCh l) = lstripCh l :=
  dropWhile_idem isSpaceChar l

theorem rstripCh_idem (l : List Char) : rstripCh (rstripCh l) = rstripCh l := by
  unfold rstripCh
  rw [List.reverse_reverse, dropWhile_idem]

theorem rstripCh_eq_nil_iff (l : List Char) :
    rstripCh l = [] ↔ ∀ c ∈ l, isSpaceChar c = true := by
  unfold rstripCh
  rw [List.reverse_eq_nil_iff, List.dropWhile_eq_nil_iff]
  constructor
  · intro h c hc
    exact h c (List.mem_reverse.mpr hc)
  · intro h c hc
    exact h c (List.mem_reverse.mp hc)

theorem rstripCh_cons (x : Char) (xs : List Char) :
    rstripCh (x :: xs) =
      if rstripCh xs = [] then (if isSpaceChar x then [] else [x])
      else x :: rstripCh xs := by
  unfold rstripCh
  rw [List.reverse_cons, List.dropWhile_append]
  by_cases h : (List.dropWhile isSpaceChar xs.reverse).isEmpty = true
  · have h2 : (List.dropWhile isSpaceChar xs.reverse).reverse = [] := by
      rw [List.reverse_eq_nil_iff]
      exact List.isEmpty_iff.mp h
    rw [if_pos h, if_pos h2]
    by_cases hx : isSpaceChar x = true
    · rw [List.dropWhile_cons, if_pos hx, if_pos hx]
      rfl
    · rw [List.dropWhile_cons, if_neg hx, if_neg hx]
      rfl
  · have h2 : ¬ (List.dropWhile isSpaceChar xs.reverse).reverse = [] := by
      rw [List.reverse_eq_nil_iff]
      intro hnil
      rw [hnil] at h
      exact h rfl
    rw [if_neg h, if_neg h2, List.reverse_append]
    rfl

theorem lstripCh_cons (x : Char) (xs : List Char) :
    lstripCh (x :: xs) = if isSpaceChar x then lstripCh xs else x :: xs := by
  unfold lstripCh
  rw [List.dropWhile_cons]

theorem strip_comm (l : List Char) :
    lstripCh (rstripCh l) = rstripCh (lstripCh l) := by
  induction l with
  | nil => rfl
  | cons x xs ih =>
    rw [rstripCh_cons, lstripCh_cons]
    by_cases hx : isSpaceChar x = true
    · rw [if_pos hx, if_pos hx]
      by_cases hnil : rstripCh xs = []
      · rw [if_pos hnil]
        have hz : rstripCh (lstripCh xs) = [] := by
          rw [rstripCh_eq_nil_iff]
          intro c hc
          exact (rstripCh_eq_nil_iff xs).mp hnil c
            ((List.dropWhile_suffix isSpaceChar).subset hc)
        rw [hz]
        rfl
      · rw [if_neg hnil, lstripCh_cons, if_pos hx]
        exact ih
    · rw [if_neg hx, if_neg hx, rstripCh_cons, if_neg hx]
      by_cases hnil : rstripCh xs = []
      · rw [if_pos hnil, lstripCh_cons, if_neg hx]
      · rw [if_neg hnil, lstripCh_cons, if_neg hx]

theorem stripChars_idem (l : List Char) : stripChars (stripChars l) = stripChars l := by
  rw [stripChars_eq, stripChars_eq, strip_comm (lstripCh l), lstripCh_idem, rstripCh_idem]

theorem pyStrip_idem (s : String) : pyStrip (pyStrip s) = pyStrip s := by
  unfold pyStrip
  rw [show (String.mk (stripChars s.toList)).toList = stripChars s.toList from rfl,
    stripChars_idem]

/-! ### Lemmas: the email normalizer is idempotent -/

theorem normLower_toList (x : String) :
    (normLower x).toList = (stripChars x.toList).map lowerChar := rfl

theorem map_lower_eq_self_of_mem {l : List Char} (h : ∀ c ∈ l, lowerChar c = c) :
    l.map lowerChar = l := by
  have h2 := List.map_congr_left (g := id) h
  rwa [List.map_id] at h2

theorem eq_self_of_map_lower :
    ∀ {l : List Char}, l.map lowerChar = l → ∀ c ∈ l, lowerChar c = c := by
  intro l
  induction l with
  | nil => intro _ c hc; cases hc
  | cons x xs ih =>
    intro h c hc
    rw [List.map_cons] at h
    have hx : lowerChar x = x := (List.cons.injEq _ _ _ _ ▸ h).1
    have hxs : xs.map lowerChar = xs := (List.cons.injEq _ _ _ _ ▸ h).2
    rcases List.mem_cons.mp hc with h1 | h1
    · rw [h1]; exact hx
    · exact ih hxs c h1

theorem lowerStable_normLower (x : String) :
    ((normLower x).toList).map lowerChar = (normLower x).toList := by
  rw [normLower_toList, List.map_map]
  exact List.map_congr_left (fun c _ => lowerChar_idem c)

theorem stripStable_normLower (x : String) :
    stripChars ((normLower x).toList) = (normLower x).toList := by
  rw [normLower_toList, ← stripChars_map_lower, stripChars_idem, stripChars_map_lower]

theorem head_stripChars_false (l : List Char) :
    ∀ c, (stripChars l).head? = some c → isSpaceChar c = false := by
  intro c h
  rw [stripChars_eq, ← strip_comm] at h
  exact head_dropWhile_false isSpaceChar _ c h

theorem last_stripChars_false (l : List Char) :
    ∀ c, (stripChars l).getLast? = some c → isSpaceChar c = false := by
  intro c h
  rw [stripChars_eq] at h
  unfold rstripCh at h
  rw [List.getLast?_reverse] at h
  exact head_dropWhile_false isSpaceChar _ c h

theorem head_normLower_false (x : String) :
    ∀ c, ((normLower x).toList).head? = some c → isSpaceChar c = false := by
  intro c h
  rw [normLower_toList, List.head?_map] at h
  cases hh : (stripChars x.toList).head? with
  | none => rw [hh] at h; cases h
  | some d =>
    rw [hh] at h
    obtain rfl : lowerChar d = c := Option.some.inj h
    rw [isSpaceChar_lowerChar]
    exact head_stripChars_false _ d hh

theorem last_normLower_false (x : String) :
    ∀ c, ((normLower x).toList).getLast? = some c → isSpaceChar c = false := by
  intro c h
  rw [normLower_toList, List.getLast?_map] at h
  cases hh : (stripChars x.toList).getLast? with
  | none => rw [hh] at h; cases h
  | some d =>
    rw [hh] at h
    obtain rfl : lowerChar d = c := Option.some.inj h
    rw [isSpaceChar_lowerChar]
    exact last_stripChars_false _ d hh

theorem stripChars_noop {l : List Char}
    (h1 : ∀ c, l.head? = some c → isSpaceChar c = false)
    (h2 : ∀ c, l.getLast? = some c → isSpaceChar c = false) :
    stripChars l = l := by
  have hl : lstripCh l = l := by
    cases l with
    | nil => rfl
    | cons x xs =>
      rw [lstripCh_cons, if_neg (by rw [h1 x rfl]; exact Bool.false_ne_true)]
  have hr : rstripCh l = l := by
    unfold rstripCh
    cases hrev : l.reverse with
    | nil =>
      rw [List.reverse_eq_nil_iff] at hrev
      subst hrev
      rfl
    | cons y ys =>
      have hy : isSpaceChar y = false := by
        apply h2
        rw [← List.head?_reverse, hrev]
        rfl
      have hdw : List.dropWhile isSpaceChar (y :: ys) = y :: ys := by
        rw [List.dropWhile_cons, if_neg (by rw [hy]; exact Bool.false_ne_true)]
      rw [hdw, ← hrev, List.reverse_reverse]
  rw [stripChars_eq, hl, hr]

theorem normLower_toList_of_stable {r : List Char}
    (hstrip : stripChars r = r) (hlower : r.map lowerChar = r) :
    (normLower (String.mk r)).toList = r := by
  rw [normLower_toList]
  rw [show (String.mk r).toList = r from rfl, hstrip, hlower]

theorem takeWhile_all (q : Char → Bool) :
    ∀ (l : List Char), (∀ a ∈ l, q a = true) → l.takeWhile q = l := by
  intro l
  induction l with
  | nil => intro _; rfl
  | cons x xs ih =>
    intro h
    rw [List.takeWhile_cons, if_pos (h x (List.mem_cons_self x xs))]
    rw [ih (fun a ha => h a (List.mem_cons_of_mem _ ha))]

theorem takeWhile_append_stop (q : Char → Bool) (x : Char) (hx : q x = false) :
    ∀ (A B : List Char), (∀ a ∈ A, q a = true) → (A ++ x :: B).takeWhile q = A := by
  intro A
  induction A with
  | nil =>
    intro B _
    rw [List.nil_append, List.takeWhile_cons, if_neg (by rw [hx]; exact Bool.false_ne_true)]
  | cons a as ih =>
    intro B h
    rw [List.cons_append, List.takeWhile_cons, if_pos (h a (List.mem_cons_self a as))]
    rw [ih B (fun b hb => h b (List.mem_cons_of_mem _ hb))]

theorem dropWhile_append_stop (q : Char → Bool) (x : Char) (hx : q x = false) :
    ∀ (A B : List Char), (∀ a ∈ A, q a = true) → (A ++ x :: B).dropWhile q = x :: B := by
  intro A
  induction A with
  | nil =>
    intro B _
    rw [List.nil_append, List.dropWhile_cons, if_neg (by rw [hx]; exact Bool.false_ne_true)]
  | cons a as ih =>
    intro B h
    rw [List.cons_append, List.dropWhile_cons, if_pos (h a (List.mem_cons_self a as))]
    exact ih B (fun b hb => h b (List.mem_cons_of_mem _ hb))

theorem getLast?_of_suffix {s l : List Char} (h : s <:+ l) (hne : s ≠ []) :
    l.getLast? = s.getLast? := by
  obtain ⟨t, rfl⟩ := h
  rw [List.getLast?_append]
  cases hd : s.getLast? with
  | none => exact absurd (List.getLast?_eq_none_iff.mp hd) hne
  | some d => rfl

theorem mem_takeWhile_q (q : Char → Bool) :
    ∀ (l : List Char) (a : Char), a ∈ l.takeWhile q → q a = true := by
  intro l
  induction l with
  | nil => intro a h; cases h
  | cons x xs ih =>
    intro a h
    rw [List.takeWhile_cons] at h
    by_cases hq : q x = true
    · rw [if_pos hq] at h
      rcases List.mem_cons.mp h with rfl | h2
      · exact hq
      · exact ih a h2
    · rw [if_neg hq] at h
      cases h

theorem dropWhile_at {E : List Char} (hat : '@' ∈ E) :
    ∃ dom, E.dropWhile (fun c => c ≠ '@') = '@' :: dom := by
  cases hD : E.dropWhile (fun c => c ≠ '@') with
  | nil =>
    exfalso
    have h2 := List.dropWhile_eq_nil_iff.mp hD '@' hat
    simp at h2
  | cons d ds =>
    have hd : (fun c => (decide (c ≠ '@'))) d = false :=
      head_dropWhile_false (fun c => decide (c ≠ '@')) E d (by rw [hD]; rfl)
    have hd2 : d = '@' := by simpa using hd
    exact ⟨ds, by rw [hd2]⟩

theorem emailCore_no_at {E : List Char} (h : ¬ '@' ∈ E) : emailCore E = E := by
  unfold emailCore
  by_cases h1 : (E == []) = true
  · rw [if_pos h1]
  · rw [if_neg h1, if_pos]
    have h2 : E.contains '@' = false := by
      rw [Bool.eq_false_iff]
      intro hc
      exact h (List.elem_iff.mp hc)
    rw [h2]
    rfl

theorem emailCore_at {E dom : List Char} (hne : E ≠ [])
    (hdrop : E.dropWhile (fun c => c ≠ '@') = '@' :: dom) (hat : '@' ∈ E) :
    emailCore E =
      (if String.mk dom == "gmail.com" || String.mk dom == "googlemail.com" then
        (E.takeWhile (fun c => c ≠ '@')).takeWhile (fun c => c ≠ '+') ++ '@' :: dom
      else E.takeWhile (fun c => c ≠ '@') ++ '@' :: dom) := by
  unfold emailCore
  rw [if_neg (by simpa using hne)]
  have hc : E.contains '@' = true := List.elem_eq_true_of_mem hat
  rw [if_neg (by rw [hc]; decide)]
  simp only [hdrop, List.tail_cons]

theorem head_takeWhile_some {q : Char → Bool} {l : List Char} {c : Char}
    (h : (l.takeWhile q).head? = some c) : l.head? = some c := by
  cases l with
  | nil => cases h
  | cons a as =>
    rw [List.takeWhile_cons] at h
    by_cases hq : q a = true
    · rw [if_pos hq] at h
      exact h
    · rw [if_neg hq] at h
      cases h

theorem head_append_at {A dom : List Char}
    (hA : ∀ c, A.head? = some c → isSpaceChar c = false) :
    ∀ c, (A ++ '@' :: dom).head? = some c → isSpaceChar c = false := by
  intro c h
  cases A with
  | nil =>
    rw [List.nil_append] at h
    obtain rfl : '@' = c := Option.some.inj h
    decide
  | cons a as =>
    rw [List.cons_append] at h
    obtain rfl : a = c := Option.some.inj h
    exact hA a rfl

theorem last_append_at {A dom : List Char}
    (hdom : ∀ c, dom.getLast? = some c → isSpaceChar c = false) :
    ∀ c, (A ++ '@' :: dom).getLast? = some c → isSpaceChar c = false := by
  intro c h
  rw [List.getLast?_append] at h
  cases dom with
  | nil =>
    have h2 : (['@'] : List Char).getLast? = some '@' := rfl
    rw [h2] at h
    obtain rfl : '@' = c := Option.some.inj h
    decide
  | cons d ds =>
    rw [List.getLast?_cons_cons] at h
    cases he : (d :: ds).getLast? with
    | none => exact absurd (List.getLast?_eq_none_iff.mp he) (List.cons_ne_nil d ds)
    | some w =>
      rw [he] at h
      obtain rfl : w = c := Option.some.inj h
      exact hdom w he

theorem dom_suffix {E dom : List Char}
    (hdrop : E.dropWhile (fun c => c ≠ '@') = '@' :: dom) : dom <:+ E := by
  have h1 : dom <:+ '@' :: dom := ⟨['@'], rfl⟩
  rw [← hdrop] at h1
  exact h1.trans (List.dropWhile_suffix _)

/-- Every character of `emailCore E` is a character of `E` or the `@`. -/
theorem emailCore_mem {E : List Char} :
    ∀ c ∈ emailCore E, c ∈ E ∨ c = '@' := by
  intro c hc
  by_cases hat : '@' ∈ E
  · obtain ⟨dom, hdrop⟩ := dropWhile_at hat
    have hne : E ≠ [] := fun h => by subst h; cases hat
    rw [emailCore_at hne hdrop hat] at hc
    have hstep : c ∈ E.takeWhile (fun c => c ≠ '@') ++ '@' :: dom ∨
        c ∈ (E.takeWhile (fun c => c ≠ '@')).takeWhile (fun c => c ≠ '+') ++ '@' :: dom := by
      by_cases hg : (String.mk dom == "gmail.com" || String.mk dom == "googlemail.com") = true
      · rw [if_pos hg] at hc
        exact Or.inr hc
      · rw [if_neg hg] at hc
        exact Or.inl hc
    have hdomE : ∀ d ∈ dom, d ∈ E := fun d hd => (dom_suffix hdrop).subset hd
    have hlocE : ∀ d ∈ E.takeWhile (fun c => c ≠ '@'), d ∈ E :=
      fun d hd => (List.takeWhile_sublist _).subset hd
    rcases hstep with hmem | hmem
    · rcases List.mem_append.mp hmem with h1 | h1
      · exact Or.inl (hlocE c h1)
      · rcases List.mem_cons.mp h1 with h2 | h2
        · exact Or.inr h2
        · exact Or.inl (hdomE c h2)
    · rcases List.mem_append.mp hmem with h1 | h1
      · exact Or.inl (hlocE c ((List.takeWhile_sublist _).subset h1))
      · rcases List.mem_cons.mp h1 with h2 | h2
        · exact Or.inr h2
        · exact Or.inl (hdomE c h2)
  · rw [emailCore_no_at hat] at hc
    exact Or.inl hc

theorem emailCore_lower_stable {E : List Char} (h : ∀ c ∈ E, lowerChar c = c) :
    (emailCore E).map lowerChar = emailCore E :=
  map_lower_eq_self_of_mem (fun c hc => by
    rcases emailCore_mem c hc with h1 | h1
    · exact h c h1
    · rw [h1]
      decide)

theorem emailCore_strip_stable {E : List Char}
    (hh : ∀ c, E.head? = some c → isSpaceChar c = false)
    (hl : ∀ c, E.getLast? = some c → isSpaceChar c = false) :
    stripChars (emailCore E) = emailCore E := by
  by_cases hat : '@' ∈ E
  · obtain ⟨dom, hdrop⟩ := dropWhile_at hat
    have hne : E ≠ [] := fun h => by subst h; cases hat
    rw [emailCore_at hne hdrop hat]
    have hdomLast : ∀ c, dom.getLast? = some c → isSpaceChar c = false := by
      intro c hc
      have hsuf : dom ≠ [] := by
        intro h0
        rw [h0] at hc
        cases hc
      have := getLast?_of_suffix (dom_suffix hdrop) hsuf
      exact hl c (by rw [this]; exact hc)
    have hlocHead : ∀ c, (E.takeWhile (fun c => c ≠ '@')).head? = some c →
        isSpaceChar c = false :=
      fun c hc => hh c (head_takeWhile_some hc)
    have hloc2Head : ∀ c,
        ((E.takeWhile (fun c => c ≠ '@')).takeWhile (fun c => c ≠ '+')).head? = some c →
          isSpaceChar c = false :=
      fun c hc => hlocHead c (head_takeWhile_some hc)
    by_cases hg : (String.mk dom == "gmail.com" || String.mk dom == "googlemail.com") = true
    · rw [if_pos hg]
      exact stripChars_noop (head_append_at hloc2Head) (last_append_at hdomLast)
    · rw [if_neg hg]
      exact stripChars_noop (head_append_at hlocHead) (last_append_at hdomLast)
  · rw [emailCore_no_at hat]
    exact stripChars_noop hh hl

theorem emailCore_emailCore (E : List Char) : emailCore (emailCore E) = emailCore E := by
  by_cases hat : '@' ∈ E
  · obtain ⟨dom, hdrop⟩ := dropWhile_at hat
    have hne : E ≠ [] := fun h => by subst h; cases hat
    have hqat : (fun c => (decide (c ≠ '@'))) '@' = false := by decide
    have hlocq : ∀ a ∈ E.takeWhile (fun c => c ≠ '@'),
        (fun c => (decide (c ≠ '@'))) a = true := by
      intro a ha
      exact mem_takeWhile_q (fun c => decide (c ≠ '@')) E a ha
    rw [emailCore_at hne hdrop hat]
    by_cases hg : (String.mk dom == "gmail.com" || String.mk dom == "googlemail.com") = true
    · rw [if_pos hg]
      have hlocq2 : ∀ a ∈ (E.takeWhile (fun c => c ≠ '@')).takeWhile (fun c => c ≠ '+'),
          (fun c => (decide (c ≠ '@'))) a = true := by
        intro a ha
        exact hlocq a ((List.takeWhile_sublist _).subset ha)
      have hat2 : '@' ∈ (E.takeWhile (fun c => c ≠ '@')).takeWhile (fun c => c ≠ '+') ++
          '@' :: dom :=
        List.mem_append_right _ (List.mem_cons_self _ _)
      have hne2 : (E.takeWhile (fun c => c ≠ '@')).takeWhile (fun c => c ≠ '+') ++
          '@' :: dom ≠ [] := by simp
      have hdrop2 := dropWhile_append_stop _ '@' hqat _ dom hlocq2
      rw [emailCore_at hne2 hdrop2 hat2]
      rw [takeWhile_append_stop _ '@' hqat _ dom hlocq2]
      rw [if_pos hg]
      rw [takeWhile_all _ _ (by
        intro a ha
        exact mem_takeWhile_q (fun c => decide (c ≠ '+')) _ a ha)]
    · rw [if_neg hg]
      have hat2 : '@' ∈ E.takeWhile (fun c => c ≠ '@') ++ '@' :: dom :=
        List.mem_append_right _ (List.mem_cons_self _ _)
      have hne2 : E.takeWhile (fun c => c ≠ '@') ++ '@' :: dom ≠ [] := by simp
      have hdrop2 := dropWhile_append_stop _ '@' hqat _ dom hlocq
      rw [emailCore_at hne2 hdrop2 hat2]
      rw [takeWhile_append_stop _ '@' hqat _ dom hlocq]
      rw [if_neg hg]
  · rw [emailCore_no_at hat, emailCore_no_at hat]

theorem normalizeEmail_eq (x : String) :
    normalizeEmail x = String.mk (emailCore ((normLower x).toList)) := by
  unfold normalizeEmail emailCore
  by_cases h1 : (((normLower x).toList) == ([] : List Char)) = true
  · rw [if_pos h1, if_pos h1]
  · rw [if_neg h1, if_neg h1]
    by_cases h2 : (!((normLower x).toList.contains '@')) = true
    · rw [if_pos h2, if_pos h2]
    · rw [if_neg h2, if_neg h2]
      by_cases h3 : (String.mk (((normLower x).toList.dropWhile (fun c => c ≠ '@')).tail) ==
          "gmail.com" ||
          String.mk (((normLower x).toList.dropWhile (fun c => c ≠ '@')).tail) ==
          "googlemail.com") = true
      · rw [if_pos h3, if_pos h3]
      · rw [if_neg h3, if_neg h3]

theorem normalizeEmail_idem (x : String) :
    normalizeEmail (normalizeEmail x) = normalizeEmail x := by
  rw [normalizeEmail_eq x, normalizeEmail_eq (String.mk (emailCore ((normLower x).toList)))]
  have hstrip : stripChars (emailCore ((normLower x).toList)) =
      emailCore ((normLower x).toList) :=
    emailCore_strip_stable (head_normLower_false x) (last_normLower_false x)
  have hlower : (emailCore ((normLower x).toList)).map lowerChar =
      emailCore ((normLower x).toList) :=
    emailCore_lower_stable (eq_self_of_map_lower (lowerStable_normLower x))
  rw [normLower_toList_of_stable hstrip hlower, emailCore_emailCore]

theorem normalizePhone_cases {P : Type} (lib : PhoneLib P) (x : String) :
    normalizePhone lib x = "" ∨
      ∃ p, lib.parse x = some p ∧ lib.isPossible p = true ∧
        normalizePhone lib x = lib.formatE164 p := by
  unfold normalizePhone
  by_cases h1 : (pyStrip x == "") = true
  · rw [if_pos h1]
    exact Or.inl rfl
  · rw [if_neg h1]
    cases hp : lib.parse x with
    | none => exact Or.inl rfl
    | some p =>
      by_cases h2 : lib.isPossible p = true
      · refine Or.inr ⟨p, rfl, h2, ?_⟩
        show (if lib.isPossible p = true then lib.formatE164 p else "") = lib.formatE164 p
        rw [if_pos h2]
      · refine Or.inl ?_
        show (if lib.isPossible p = true then lib.formatE164 p else "") = ""
        rw [if_neg h2]

/-- C9 is refuted as stated: the domain normalizer `_domain_only` is not
idempotent.  It strips a leading `www.` only once, so on
`"www.www.acme.com"` the first application yields `"www.acme.com"` while a
second application yields `"acme.com"`, a different value. -/
theorem c9_counterexample :
    domainOnly (domainOnly "www.www.acme.com") ≠ domainOnly "www.www.acme.com" ∧
    domainOnly "www.www.acme.com" = "www.acme.com" ∧
    domainOnly (domainOnly "www.www.acme.com") = "acme.com" := by
  refine ⟨?_, ?_, ?_⟩ <;> decide

/-- C9 (amended): idempotence holds for the email normalizer
`_normalize_email` and for the name normalization `strip`, and it holds for
the phone normalizer `_normalize_phone` for any phonenumbers backend whose
E.164 renderings parse back to the same number and never strip to the empty
string; only the domain normalizer `_domain_only` fails idempotence (it
removes a leading `www.` once rather than repeatedly). -/
theorem c9_amended_idempotence :
    (∀ x : String, normalizeEmail (normalizeEmail x) = normalizeEmail x) ∧
    (∀ x : String, pyStrip (pyStrip x) = pyStrip x) ∧
    (∀ (P : Type) (lib : PhoneLib P),
      (∀ p, lib.parse (lib.formatE164 p) = some p) →
      (∀ p, pyStrip (lib.formatE164 p) ≠ "") →
      ∀ x : String, normalizePhone lib (normalizePhone lib x) = normalizePhone lib x) := by
  refine ⟨normalizeEmail_idem, pyStrip_idem, ?_⟩
  intro P lib hround hns x
  rcases normalizePhone_cases lib x with h | ⟨p, _, hposs, h⟩
  · rw [h]
    rfl
  · rw [h]
    unfold normalizePhone
    have hb : (pyStrip (lib.formatE164 p) == "") = false := by
      cases hbe : (pyStrip (lib.formatE164 p) == "") with
      | false => rfl
      | true => exact absurd (by simpa using hbe) (hns p)
    rw [if_neg (by simp [hb])]
    rw [hround p]
    show (if lib.isPossible p = true then lib.formatE164 p else "") = lib.formatE164 p
    rw [if_pos hposs]

/-- Closed instance of the amended C9 phone clause: the one-number toy
backend satisfies both round-trip hypotheses, and the phone normalizer is
idempotent on a concrete input. -/
theorem c9_amended_idempotence_witness :
    normalizePhone toyLib (normalizePhone toyLib " +1 555 123 4567 ") =
      normalizePhone toyLib " +1 555 123 4567 " :=
  c9_amended_idempotence.2.2 Unit toyLib
    (fun p => by cases p; rfl)
    (fun p => by cases p; decide)
    " +1 555 123 4567 "

end CrmDedupe
